import Mathlib

/-!
# adrianwit/encoding: benchmark harness and codec composition

A shallow embedding of `benchtools/benchtools.go` (the harness `TestCodec`,
`Compress`, `Uncompress`, `RunCompress`, `RunUncompress`) and of the codec
composition that `composition/composition_test.go` exercises.

Conventions of the embedding

* `[]int32` is `List Int`. The harness only allocates, slices, copies and
  compares elements, so no 32-bit arithmetic is involved.
* Go `int` values that the harness receives from its caller (`length`, the
  entries of `sizes`) are `Int`: they may be negative. The one arithmetic
  operation on them, `length*2`, wraps around at the width of `int` on the
  platform. The theorems that double the length of a slice assume that the
  double is representable, as it is for every slice that fits in memory.
* An allocation `make([]int32, n)` panics for `n < 0` and for `n` above the
  largest length the runtime allocates (`makeslice: len out of range`), which
  the environment gives; it succeeds otherwise.
* A call through the interface `encoding.Integer` is a function from the five
  arguments to what the call leaves behind: the destination buffer, both
  cursor values and the returned error. The source slice is read-only for the
  codec, and a codec is deterministic.
* The functions of the harness return the list of effects they performed (the
  trace) next to the way they ended: a normal return, a `log.Fatal` exit or a
  run-time panic.
-/

namespace Encoding

/-! ## Data model -/

/-- A Go `error` value, identified by its message; `none : Option Error` is `nil`. -/
abbrev Error := String

/-- Modelled from the spec: package `cursor` is not among the sources. Section 3
describes a cursor as a single integer offset into a sequence, starting at 0,
with `0 ≤ value`. The value a cursor holds is therefore a natural number, and
`cursor.New()` holds 0. The bound against a buffer length is an obligation of
the codec that moves the cursor, not of the cursor, so every slicing by a
cursor value keeps its range check. -/
@[simp] def Cursor.New : Nat := 0

/-- Modelled from the spec: the method `Get` of a cursor, its current offset
(`value()` in section 4.1). -/
@[simp] def Cursor.Get (c : Nat) : Nat := c

/-- What one call of `Compress` or `Uncompress` leaves behind: the contents of
the destination buffer, the values of the two cursors, and the returned error. -/
structure CallResult where
  out : List Int
  inpos : Nat
  outpos : Nat
  err : Option Error
deriving DecidableEq

/-- The interface `encoding.Integer`. Its declaration is outside the sources; a
codec is a parameter of the harness, with the signature the harness calls it
by: `Compress(in, inpos, inlength, out, outpos) error` and the same for
`Uncompress`. A callee cannot change the length of the slice its caller holds,
which the two `_len` fields record. -/
structure Integer where
  Compress : List Int → Nat → Nat → List Int → Nat → CallResult
  Uncompress : List Int → Nat → Nat → List Int → Nat → CallResult
  compress_len : ∀ inp inpos inlength out outpos,
    (Compress inp inpos inlength out outpos).out.length = out.length
  uncompress_len : ∀ inp inpos inlength out outpos,
    (Uncompress inp inpos inlength out outpos).out.length = out.length

/-! ## Effects and outcomes -/

/-- The effects of the harness that the properties below speak about, in program
order. -/
inductive Event where
  /-- Evaluation of `make([]int32, n)`. -/
  | make (n : Int)
  /-- Evaluation of `os.Create(name)`. -/
  | create (name : String)
  /-- Evaluation of `pprof.StartCPUProfile(f)`. -/
  | startCPUProfile
  /-- Evaluation of `pprof.StopCPUProfile()`. -/
  | stopCPUProfile
  /-- The deferred `f.Close()`. -/
  | close (name : String)
  /-- The call `codec.Compress(in, inpos, inlength, out, outpos)`. -/
  | compress (inp : List Int) (inpos : Nat) (inlength : Nat) (out : List Int) (outpos : Nat)
  /-- The call `codec.Uncompress(in, inpos, inlength, out, outpos)`. -/
  | uncompress (inp : List Int) (inpos : Nat) (inlength : Nat) (out : List Int) (outpos : Nat)
  /-- The metrics line of a trial: compressed words and trial size. -/
  | printf (words : Nat) (k : Int)
deriving DecidableEq

/-- The two ways the harness ends the process through package `log`. -/
inductive Fatal where
  /-- The exit by `log.Fatal(err)`. -/
  | error (e : Error)
  /-- The exit by `log.Fatalf("... Problem recovering. index = %d, in = %d, recovered = %d,
  original length = %d, recovered length = %d")` with its five arguments. -/
  | recovering (index : Nat) (inVal : Int) (recovered : Int) (originalLength : Int)
      (recoveredLength : Nat)
deriving DecidableEq

/-- How a function of the harness ends. -/
inductive Outcome (α : Type) where
  /-- The function returned `v`. -/
  | returned (v : α)
  /-- The process exited through `log.Fatal` or `log.Fatalf`. -/
  | fatal (f : Fatal)
  /-- A run-time panic: a `make` with a negative or too large length, a slice or
  an index out of range. -/
  | panicked
deriving DecidableEq

/-- A finished run: the effects performed and the way it ended. -/
structure Run (α : Type) where
  trace : List Event
  outcome : Outcome α
deriving DecidableEq

/-- The three results `(duration, out, err)` of `RunCompress` and `RunUncompress`;
`out = none` is the `nil` slice. -/
structure Result where
  duration : Int
  out : Option (List Int)
  err : Option Error
deriving DecidableEq

/-- What the harness takes from its surroundings: whether `os.Create` of a
profile file fails, the nanoseconds `time.Since(now)` measures, the width in
bits of the type `int` on the platform (32 or 64), and the largest length of a
`[]int32` that `make` allocates: a longer one panics in `makeslice`. -/
structure Env where
  createErr : String → Option Error
  since : Int
  intBits : Nat
  maxLen : Nat

/-! ## benchtools.go -/

/-- The value of an integer expression in a Go `int` of `bits` bits: the result
wraps around in two's complement, into `[-2^(bits-1), 2^(bits-1))`. -/
def wrapInt (bits : Nat) (x : Int) : Int :=
  (x + 2 ^ (bits - 1)) % (2 * 2 ^ (bits - 1)) - 2 ^ (bits - 1)

/-- The function `RunCompress` of benchtools.go. -/
def RunCompress (env : Env) (codec : Integer) (inp : List Int) (length : Int) (prof : Bool) :
    Run Result :=
  -- out = make([]int32, length*2)
  let n := wrapInt env.intBits (length * 2)
  if n < 0 ∨ (env.maxLen : Int) < n then ⟨[.make n], .panicked⟩
  else
    let out : List Int := List.replicate n.toNat 0
    let inpos := Cursor.New
    let outpos := Cursor.New
    let alloc := [Event.make n]
    -- if prof: os.Create, log.Fatal on failure, defer f.Close(), pprof.StartCPUProfile(f)
    match (if prof then env.createErr "cpu.compress.pprof" else none) with
    | some e => ⟨alloc ++ [.create "cpu.compress.pprof"], .fatal (.error e)⟩
    | none =>
      let start := if prof then [Event.create "cpu.compress.pprof", .startCPUProfile] else []
      let deferred := if prof then [Event.close "cpu.compress.pprof"] else []
      -- err = codec.Compress(in, inpos, len(in), out, outpos)
      let r := codec.Compress inp inpos inp.length out outpos
      let call := [Event.compress inp inpos inp.length out outpos]
      match r.err with
      -- return 0, nil, err
      | some e => ⟨alloc ++ start ++ call ++ deferred, .returned ⟨0, none, some e⟩⟩
      | none =>
        -- if prof: pprof.StopCPUProfile(); return since, out[:outpos.Get()], nil
        let stop := if prof then [Event.stopCPUProfile] else []
        if Cursor.Get r.outpos ≤ r.out.length then
          ⟨alloc ++ start ++ call ++ stop ++ deferred,
            .returned ⟨env.since, some (r.out.take (Cursor.Get r.outpos)), none⟩⟩
        else ⟨alloc ++ start ++ call ++ stop ++ deferred, .panicked⟩

/-- The function `RunUncompress` of benchtools.go. -/
def RunUncompress (env : Env) (codec : Integer) (inp : List Int) (length : Int) (prof : Bool) :
    Run Result :=
  -- out = make([]int32, length)
  if length < 0 ∨ (env.maxLen : Int) < length then ⟨[.make length], .panicked⟩
  else
    let out : List Int := List.replicate length.toNat 0
    let inpos := Cursor.New
    let outpos := Cursor.New
    let alloc := [Event.make length]
    -- if prof: os.Create, log.Fatal on failure, defer f.Close(), pprof.StartCPUProfile(f)
    match (if prof then env.createErr "cpu.uncompress.pprof" else none) with
    | some e => ⟨alloc ++ [.create "cpu.uncompress.pprof"], .fatal (.error e)⟩
    | none =>
      let start := if prof then [Event.create "cpu.uncompress.pprof", .startCPUProfile] else []
      let deferred := if prof then [Event.close "cpu.uncompress.pprof"] else []
      -- err = codec.Uncompress(in, inpos, len(in), out, outpos)
      let r := codec.Uncompress inp inpos inp.length out outpos
      let call := [Event.uncompress inp inpos inp.length out outpos]
      match r.err with
      -- return 0, nil, err
      | some e => ⟨alloc ++ start ++ call ++ deferred, .returned ⟨0, none, some e⟩⟩
      | none =>
        -- if prof: pprof.StopCPUProfile(); return since, out[:outpos.Get()], nil
        let stop := if prof then [Event.stopCPUProfile] else []
        if Cursor.Get r.outpos ≤ r.out.length then
          ⟨alloc ++ start ++ call ++ stop ++ deferred,
            .returned ⟨env.since, some (r.out.take (Cursor.Get r.outpos)), none⟩⟩
        else ⟨alloc ++ start ++ call ++ stop ++ deferred, .panicked⟩

/-- The function `Compress` of benchtools.go. -/
def Compress (env : Env) (codec : Integer) (inp : List Int) (length : Int) : Run Result :=
  RunCompress env codec inp length false

/-- The function `Uncompress` of benchtools.go. -/
def Uncompress (env : Env) (codec : Integer) (inp : List Int) (length : Int) : Run Result :=
  RunUncompress env codec inp length false

/-- The function `PprofCompress` of benchtools.go. -/
def PprofCompress (env : Env) (codec : Integer) (inp : List Int) (length : Int) : Run Result :=
  RunCompress env codec inp length true

/-- The function `PprofUncompress` of benchtools.go. -/
def PprofUncompress (env : Env) (codec : Integer) (inp : List Int) (length : Int) : Run Result :=
  RunUncompress env codec inp length true

/-- The loop `for i := 0; i < k; i++` at the end of a trial of `TestCodec`, with
`n` iterations left and the loop variable at `i`. An index outside `in` or
outside `out2` is a run-time panic. -/
def recoverLoop (inp out2 : List Int) (k : Int) : Nat → Nat → Outcome Unit
  | 0, _ => .returned ()
  | n + 1, i =>
    match inp[i]?, out2[i]? with
    | some a, some b =>
      if a ≠ b then .fatal (.recovering i a b k out2.length)
      else recoverLoop inp out2 k n (i + 1)
    | _, _ => .panicked

/-- The function `TestCodec` of benchtools.go, by recursion on the sizes still to
be tried. -/
def TestCodec (env : Env) (codec : Integer) (inp : List Int) : List Int → Run Unit
  | [] => ⟨[], .returned ()⟩
  | k :: sizes =>
    -- if k > len(in): continue
    if k > (inp.length : Int) then TestCodec env codec inp sizes
    -- the slice expression in[:k] panics for a negative k
    else if k < 0 then ⟨[], .panicked⟩
    else
      -- dur, out, err := Compress(codec, in[:k], k); log.Fatal(err) on an error
      let c := Compress env codec (inp.take k.toNat) k
      match c.outcome with
      | .fatal f => ⟨c.trace, .fatal f⟩
      | .panicked => ⟨c.trace, .panicked⟩
      | .returned rc =>
        match rc.err with
        | some e => ⟨c.trace, .fatal (.error e)⟩
        | none =>
          let out := rc.out.getD []
          -- dur2, out2, err2 := Uncompress(codec, out, k); log.Fatal(err2) on an error
          let u := Uncompress env codec out k
          match u.outcome with
          | .fatal f => ⟨c.trace ++ u.trace, .fatal f⟩
          | .panicked => ⟨c.trace ++ u.trace, .panicked⟩
          | .returned ru =>
            match ru.err with
            | some e => ⟨c.trace ++ u.trace, .fatal (.error e)⟩
            | none =>
              let out2 := ru.out.getD []
              let shown := [Event.printf out.length k]
              match recoverLoop inp out2 k k.toNat 0 with
              | .returned _ =>
                let rest := TestCodec env codec inp sizes
                ⟨c.trace ++ u.trace ++ shown ++ rest.trace, rest.outcome⟩
              | .fatal f => ⟨c.trace ++ u.trace ++ shown, .fatal f⟩
              | .panicked => ⟨c.trace ++ u.trace ++ shown, .panicked⟩

/-- Whether a CPU profiling session is active after the effects of `t`, given
whether one was active before. -/
def profiling (active : Bool) : List Event → Bool
  | [] => active
  | .startCPUProfile :: t => profiling true t
  | .stopCPUProfile :: t => profiling false t
  | _ :: t => profiling active t

/-! ## The codec composition -/

/-- Modelled from the spec: a bulk codec (glossary: a codec whose operations
require the element count to be an exact multiple of a fixed block size). The
codec packages are not among the sources; section 4.3 takes the block size of
the bulk codec as known. -/
structure Bulk extends Integer where
  blockSize : Nat

/-- Which of the two owned codecs a call of the composite codec goes to. -/
inductive Target where
  | bulk
  | remainder
deriving DecidableEq

/-- One call the composite codec makes to a codec it owns, with the five
arguments of the call. -/
structure SubCall where
  target : Target
  inp : List Int
  inpos : Nat
  inlength : Nat
  out : List Int
  outpos : Nat
deriving DecidableEq

/-- Modelled from the spec: composition.go is not among the sources. The
compress algorithm of section 4.3, with the calls it makes. `aligned` is
`k - (k mod blockSize)`; the bulk codec is called on the first `aligned`
elements when `aligned > 0`; the remainder codec is called on the last
`k - aligned` elements when `k - aligned > 0`, from the cursor values the bulk
call left. A `CodecError` of the bulk call is returned unchanged (section 7)
and ends the call. -/
def Composition.compress (bulk : Bulk) (remainder : Integer) (inp : List Int) (inpos : Nat)
    (inlength : Nat) (out : List Int) (outpos : Nat) : List SubCall × CallResult :=
  let k := inlength
  let aligned := k - k % bulk.blockSize
  let step2 : List SubCall × CallResult :=
    if aligned > 0 then
      ([⟨.bulk, inp, inpos, aligned, out, outpos⟩], bulk.Compress inp inpos aligned out outpos)
    else ([], ⟨out, inpos, outpos, none⟩)
  match step2.2.err with
  | some _ => step2
  | none =>
    if k - aligned > 0 then
      (step2.1 ++ [⟨.remainder, inp, step2.2.inpos, k - aligned, step2.2.out, step2.2.outpos⟩],
        remainder.Compress inp step2.2.inpos (k - aligned) step2.2.out step2.2.outpos)
    else step2

/-- Modelled from the spec: composition.go is not among the sources. The
decompress algorithm of section 4.3, with the calls it makes. The element
count `k` is the one the caller supplies: the harness supplies it as the length
of the destination buffer, so `k` is the room of the destination from the
output cursor on. The split is recomputed as in compression. The bulk codec is
instructed to produce exactly `aligned` elements by receiving the destination
up to `outpos + aligned`; the remainder codec continues from the cursor values
the bulk call left, with the compressed words that are still available, and
fills the rest of the destination. A `CodecError` of the bulk call is returned
unchanged and ends the call. -/
def Composition.uncompress (bulk : Bulk) (remainder : Integer) (inp : List Int) (inpos : Nat)
    (inlength : Nat) (out : List Int) (outpos : Nat) : List SubCall × CallResult :=
  let k := out.length - outpos
  let aligned := k - k % bulk.blockSize
  let step2 : List SubCall × CallResult :=
    if aligned > 0 then
      let window := out.take (outpos + aligned)
      let r := bulk.Uncompress inp inpos inlength window outpos
      ([⟨.bulk, inp, inpos, inlength, window, outpos⟩],
        ⟨r.out ++ out.drop (outpos + aligned), r.inpos, r.outpos, r.err⟩)
    else ([], ⟨out, inpos, outpos, none⟩)
  match step2.2.err with
  | some _ => step2
  | none =>
    if k - aligned > 0 then
      let avail := inlength - (step2.2.inpos - inpos)
      (step2.1 ++ [⟨.remainder, inp, step2.2.inpos, avail, step2.2.out, step2.2.outpos⟩],
        remainder.Uncompress inp step2.2.inpos avail step2.2.out step2.2.outpos)
    else step2

/-- Modelled from the spec: composition.go is not among the sources. The
constructor `New(bulk, remainder)` of section 4.3: the composite codec owns the
two codecs and is itself an `encoding.Integer`. -/
def Composition.New (bulk : Bulk) (remainder : Integer) : Integer where
  Compress inp inpos inlength out outpos :=
    (Composition.compress bulk remainder inp inpos inlength out outpos).2
  Uncompress inp inpos inlength out outpos :=
    (Composition.uncompress bulk remainder inp inpos inlength out outpos).2
  compress_len inp inpos inlength out outpos := by
    unfold Composition.compress
    simp only
    split
    · split_ifs <;> simp [Integer.compress_len]
    · split_ifs <;> simp [Integer.compress_len]
  uncompress_len inp inpos inlength out outpos := by
    unfold Composition.uncompress
    simp only
    split
    · split_ifs <;> simp [Integer.uncompress_len]; omega
    · split_ifs <;> simp [Integer.uncompress_len] <;> omega

/-- Modelled from the spec: the codec packages are not among the sources. A
supported codec, by the contract of section 4.2, for the element counts `ok` it
accepts. `Compress` of `n` accepted elements that are there, into a buffer with
room for twice as many words (the bound on expansion of section 3), succeeds,
advances the input cursor by `n`, does not move the output cursor backwards nor
by more than `2n`, and leaves the words before the output cursor alone.
`Uncompress`, started at the same offset on any sequence that holds the words
just written, with at least that many words available and a destination with
room for exactly `n` elements, succeeds, advances the input cursor over those
words and the output cursor by `n`, leaves the elements before the output
cursor alone, and produces the `n` elements that were compressed. -/
def Supported (c : Integer) (ok : Nat → Prop) : Prop :=
  ∀ (inp : List Int) (inpos n : Nat) (out : List Int) (outpos : Nat),
    ok n → inpos + n ≤ inp.length → outpos + 2 * n ≤ out.length →
    (c.Compress inp inpos n out outpos).err = none ∧
    (c.Compress inp inpos n out outpos).inpos = inpos + n ∧
    outpos ≤ (c.Compress inp inpos n out outpos).outpos ∧
    (c.Compress inp inpos n out outpos).outpos ≤ outpos + 2 * n ∧
    (∀ i, i < outpos → (c.Compress inp inpos n out outpos).out[i]? = out[i]?) ∧
    ∀ (words : List Int) (avail : Nat) (dst : List Int) (dpos : Nat),
      (∀ i, outpos ≤ i → i < (c.Compress inp inpos n out outpos).outpos →
        words[i]? = (c.Compress inp inpos n out outpos).out[i]?) →
      (c.Compress inp inpos n out outpos).outpos ≤ outpos + avail →
      dpos + n = dst.length →
      (c.Uncompress words outpos avail dst dpos).err = none ∧
      (c.Uncompress words outpos avail dst dpos).inpos
        = (c.Compress inp inpos n out outpos).outpos ∧
      (c.Uncompress words outpos avail dst dpos).outpos = dpos + n ∧
      (∀ i, i < dpos → (c.Uncompress words outpos avail dst dpos).out[i]? = dst[i]?) ∧
      (∀ i, i < n → (c.Uncompress words outpos avail dst dpos).out[dpos + i]? = inp[inpos + i]?)

/-! ## Codecs used as concrete inputs -/

/-- A codec that does nothing and reports success. -/
def idleCodec : Integer where
  Compress _ inpos _ out outpos := ⟨out, inpos, outpos, none⟩
  Uncompress _ inpos _ out outpos := ⟨out, inpos, outpos, none⟩
  compress_len _ _ _ _ _ := rfl
  uncompress_len _ _ _ _ _ := rfl

/-- A codec that stores nothing: `Compress` writes no word, and `Uncompress`
moves the output cursor to the end of the destination without writing. -/
def blankCodec : Integer where
  Compress _ inpos _ out outpos := ⟨out, inpos, outpos, none⟩
  Uncompress _ inpos _ out _ := ⟨out, inpos, out.length, none⟩
  compress_len _ _ _ _ _ := rfl
  uncompress_len _ _ _ _ _ := rfl

/-- A codec whose two operations return an error. -/
def failingCodec : Integer where
  Compress _ inpos _ out outpos := ⟨out, inpos, outpos, some "codec error"⟩
  Uncompress _ inpos _ out outpos := ⟨out, inpos, outpos, some "codec error"⟩
  compress_len _ _ _ _ _ := rfl
  uncompress_len _ _ _ _ _ := rfl

/-- A codec that stores the elements as they are, for the lengths `ok` accepts:
`Compress` copies `inlength` elements to the output cursor, `Uncompress`
fills the room of its destination from the compressed words. -/
def plainCodec (ok : Nat → Bool) : Integer where
  Compress inp inpos inlength out outpos :=
    if ok inlength ∧ inpos + inlength ≤ inp.length ∧ outpos + inlength ≤ out.length then
      ⟨out.take outpos ++ ((inp.drop inpos).take inlength ++ out.drop (outpos + inlength)),
        inpos + inlength, outpos + inlength, none⟩
    else ⟨out, inpos, outpos, some "plain: length or buffer"⟩
  Uncompress inp inpos inlength out outpos :=
    let n := out.length - outpos
    if ok n ∧ n ≤ inlength ∧ inpos + n ≤ inp.length ∧ outpos ≤ out.length then
      ⟨out.take outpos ++ (inp.drop inpos).take n, inpos + n, outpos + n, none⟩
    else ⟨out, inpos, outpos, some "plain: length or buffer"⟩
  compress_len inp inpos inlength out outpos := by
    simp only
    split_ifs with h
    · obtain ⟨_, h1, h2⟩ := h
      simp only [List.length_append, List.length_take, List.length_drop]; omega
    · rfl
  uncompress_len inp inpos inlength out outpos := by
    simp only
    split_ifs with h
    · obtain ⟨_, h1, h2, h3⟩ := h
      simp only [List.length_append, List.length_take, List.length_drop]; omega
    · rfl

/-- The plain codec as a bulk codec of block size `b`: it accepts the positive
multiples of `b`. -/
def plainBulk (b : Nat) : Bulk where
  toInteger := plainCodec (fun n => decide (0 < n ∧ n % b = 0))
  blockSize := b

/-- The plain codec as a remainder codec: it accepts every positive length. -/
def plainRemainder : Integer := plainCodec (fun n => decide (0 < n))

/-- An environment in which profile files can be created, every measurement
reads 1000 ns, `int` has 64 bits and `make` allocates up to `2^46` elements. -/
def quietEnv : Env := ⟨fun _ => none, 1000, 64, 2 ^ 46⟩

/-- The calls through `encoding.Integer` among the effects of a run. -/
def codecCalls (t : List Event) : List Event :=
  t.filter fun e =>
    match e with
    | .compress .. => true
    | .uncompress .. => true
    | _ => false

end Encoding

namespace Encoding

/-! ## The harness: `RunCompress` and `RunUncompress` -/

/-- A value in the non-negative half of the range of `int` is not changed by
wrapping. -/
theorem wrapInt_fits (bits : Nat) (x : Int) (h0 : 0 ≤ x) (hfit : x < 2 ^ (bits - 1)) :
    wrapInt bits x = x := by
  unfold wrapInt
  have hpos : (0 : Int) < 2 ^ (bits - 1) := by positivity
  rw [Int.emod_eq_of_lt (by omega) (by omega)]
  omega

/-- The effects of a run of `RunCompress` whose allocation does not panic and
that gets its profile file (or needs none), and the way the run ends, in terms
of what the codec call `r` leaves. -/
theorem RunCompress_eq_wrap (env : Env) (codec : Integer) (inp : List Int) (length : Int)
    (prof : Bool) (hlen : 0 ≤ wrapInt env.intBits (length * 2))
    (hmax : wrapInt env.intBits (length * 2) ≤ (env.maxLen : Int))
    (hfile : prof = true → env.createErr "cpu.compress.pprof" = none) (r : CallResult)
    (hr : codec.Compress inp 0 inp.length
      (List.replicate (wrapInt env.intBits (length * 2)).toNat 0) 0 = r) :
    RunCompress env codec inp length prof =
      ⟨[.make (wrapInt env.intBits (length * 2))]
          ++ (if prof then [.create "cpu.compress.pprof", .startCPUProfile] else [])
          ++ [.compress inp 0 inp.length (List.replicate (wrapInt env.intBits (length * 2)).toNat 0) 0]
          ++ (if prof ∧ r.err = none then [.stopCPUProfile] else [])
          ++ (if prof then [.close "cpu.compress.pprof"] else []),
        match r.err with
        | some e => .returned ⟨0, none, some e⟩
        | none =>
          if r.outpos ≤ (wrapInt env.intBits (length * 2)).toNat then
            .returned ⟨env.since, some (r.out.take r.outpos), none⟩
          else .panicked⟩ := by
  subst hr
  have hneg : ¬ (wrapInt env.intBits (length * 2) < 0
      ∨ (env.maxLen : Int) < wrapInt env.intBits (length * 2)) := by omega
  have hcreate : (if prof = true then env.createErr "cpu.compress.pprof" else none) = none := by
    split_ifs with hp
    · exact hfile hp
    · rfl
  unfold RunCompress
  simp only [hneg, if_false, Cursor.New, Cursor.Get, hcreate, codec.compress_len,
    List.length_replicate]
  rcases h : (codec.Compress inp 0 inp.length
      (List.replicate (wrapInt env.intBits (length * 2)).toNat 0) 0).err with _ | e
  · by_cases hn : (codec.Compress inp 0 inp.length
        (List.replicate (wrapInt env.intBits (length * 2)).toNat 0) 0).outpos ≤ (wrapInt env.intBits (length * 2)).toNat
    · cases prof <;> simp [hn]
    · cases prof <;> simp [hn]
  · cases prof <;> simp

/-- The effects of a run of `RunCompress` on a length of a slice, where the
doubling does not wrap around. -/
theorem RunCompress_eq (env : Env) (codec : Integer) (inp : List Int) (length : Int) (prof : Bool)
    (hlen : 0 ≤ length) (hfit : length * 2 < 2 ^ (env.intBits - 1))
    (hmax : length * 2 ≤ (env.maxLen : Int))
    (hfile : prof = true → env.createErr "cpu.compress.pprof" = none)
    (r : CallResult)
    (hr : codec.Compress inp 0 inp.length (List.replicate (length.toNat * 2) 0) 0 = r) :
    RunCompress env codec inp length prof =
      ⟨[.make (length * 2)]
          ++ (if prof then [.create "cpu.compress.pprof", .startCPUProfile] else [])
          ++ [.compress inp 0 inp.length (List.replicate (length.toNat * 2) 0) 0]
          ++ (if prof ∧ r.err = none then [.stopCPUProfile] else [])
          ++ (if prof then [.close "cpu.compress.pprof"] else []),
        match r.err with
        | some e => .returned ⟨0, none, some e⟩
        | none =>
          if r.outpos ≤ length.toNat * 2 then
            .returned ⟨env.since, some (r.out.take r.outpos), none⟩
          else .panicked⟩ := by
  have hw := wrapInt_fits env.intBits (length * 2) (by omega) hfit
  have hnat : (length * 2).toNat = length.toNat * 2 := by omega
  have h := RunCompress_eq_wrap env codec inp length prof (by rw [hw]; omega)
    (by rw [hw]; exact hmax) hfile r
    (by rw [hw, hnat]; exact hr)
  rw [hw, hnat] at h
  exact h

/-- The effects of a run of `RunUncompress` that gets its profile file (or needs
none), and the way the run ends, in terms of what the codec call `r` leaves. -/
theorem RunUncompress_eq (env : Env) (codec : Integer) (inp : List Int) (length : Int)
    (prof : Bool) (hlen : 0 ≤ length) (hmax : length ≤ (env.maxLen : Int))
    (hfile : prof = true → env.createErr "cpu.uncompress.pprof" = none)
    (r : CallResult)
    (hr : codec.Uncompress inp 0 inp.length (List.replicate length.toNat 0) 0 = r) :
    RunUncompress env codec inp length prof =
      ⟨[.make length]
          ++ (if prof then [.create "cpu.uncompress.pprof", .startCPUProfile] else [])
          ++ [.uncompress inp 0 inp.length (List.replicate length.toNat 0) 0]
          ++ (if prof ∧ r.err = none then [.stopCPUProfile] else [])
          ++ (if prof then [.close "cpu.uncompress.pprof"] else []),
        match r.err with
        | some e => .returned ⟨0, none, some e⟩
        | none =>
          if r.outpos ≤ length.toNat then
            .returned ⟨env.since, some (r.out.take r.outpos), none⟩
          else .panicked⟩ := by
  subst hr
  have hneg : ¬ (length < 0 ∨ (env.maxLen : Int) < length) := by omega
  have hcreate : (if prof = true then env.createErr "cpu.uncompress.pprof" else none) = none := by
    split_ifs with hp
    · exact hfile hp
    · rfl
  unfold RunUncompress
  simp only [hneg, if_false, Cursor.New, Cursor.Get, hcreate, codec.uncompress_len,
    List.length_replicate]
  rcases h : (codec.Uncompress inp 0 inp.length (List.replicate length.toNat 0) 0).err
    with _ | e
  · by_cases hn : (codec.Uncompress inp 0 inp.length
        (List.replicate length.toNat 0) 0).outpos ≤ length.toNat
    · cases prof <;> simp [hn]
    · cases prof <;> simp [hn]
  · cases prof <;> simp

/-- A run of `RunCompress` that cannot get its profile file exits before any
codec call. -/
theorem RunCompress_nofile (env : Env) (codec : Integer) (inp : List Int) (length : Int)
    (e : Error) (hlen : 0 ≤ wrapInt env.intBits (length * 2))
    (hmax : wrapInt env.intBits (length * 2) ≤ (env.maxLen : Int))
    (hfile : env.createErr "cpu.compress.pprof" = some e) :
    RunCompress env codec inp length true =
      ⟨[.make (wrapInt env.intBits (length * 2)), .create "cpu.compress.pprof"], .fatal (.error e)⟩ := by
  have hneg : ¬ (wrapInt env.intBits (length * 2) < 0
      ∨ (env.maxLen : Int) < wrapInt env.intBits (length * 2)) := by omega
  simp [RunCompress, hneg, hfile]

/-- A run of `RunUncompress` that cannot get its profile file exits before any
codec call. -/
theorem RunUncompress_nofile (env : Env) (codec : Integer) (inp : List Int) (length : Int)
    (e : Error) (hlen : 0 ≤ length) (hmax : length ≤ (env.maxLen : Int))
    (hfile : env.createErr "cpu.uncompress.pprof" = some e) :
    RunUncompress env codec inp length true =
      ⟨[.make length, .create "cpu.uncompress.pprof"], .fatal (.error e)⟩ := by
  have hneg : ¬ (length < 0 ∨ (env.maxLen : Int) < length) := by omega
  simp [RunUncompress, hneg, hfile]

/-- The unprofiled `Compress` on a length that is not negative. -/
theorem Compress_eq (env : Env) (codec : Integer) (inp : List Int) (length : Int)
    (hlen : 0 ≤ length) (hfit : length * 2 < 2 ^ (env.intBits - 1))
    (hmax : length * 2 ≤ (env.maxLen : Int)) (r : CallResult)
    (hr : codec.Compress inp 0 inp.length (List.replicate (length.toNat * 2) 0) 0 = r) :
    Compress env codec inp length =
      ⟨[.make (length * 2), .compress inp 0 inp.length (List.replicate (length.toNat * 2) 0) 0],
        match r.err with
        | some e => .returned ⟨0, none, some e⟩
        | none =>
          if r.outpos ≤ length.toNat * 2 then
            .returned ⟨env.since, some (r.out.take r.outpos), none⟩
          else .panicked⟩ := by
  rw [Compress, RunCompress_eq env codec inp length false hlen hfit hmax (by simp) r hr]
  simp

/-- The unprofiled `Uncompress` on a length that is not negative. -/
theorem Uncompress_eq (env : Env) (codec : Integer) (inp : List Int) (length : Int)
    (hlen : 0 ≤ length) (hmax : length ≤ (env.maxLen : Int)) (r : CallResult)
    (hr : codec.Uncompress inp 0 inp.length (List.replicate length.toNat 0) 0 = r) :
    Uncompress env codec inp length =
      ⟨[.make length, .uncompress inp 0 inp.length (List.replicate length.toNat 0) 0],
        match r.err with
        | some e => .returned ⟨0, none, some e⟩
        | none =>
          if r.outpos ≤ length.toNat then
            .returned ⟨env.since, some (r.out.take r.outpos), none⟩
          else .panicked⟩ := by
  rw [Uncompress, RunUncompress_eq env codec inp length false hlen hmax (by simp) r hr]
  simp

/-- C6. For every codec and every input `in` of length `k` (with `2k`
representable in `int` and within what `make` allocates), `Compress`
(`RunCompress`) calls the codec's
`Compress` with `in`, input cursor 0, logical length `k`, a zero-filled buffer
of `2k` words and output cursor 0, and makes no other codec call. When the codec reports no error and leaves the output cursor
at `n ≤ 2k`, the run returns the first `n` words of that buffer with a nil
error; and whenever a run, profiled or not, returns a nil error, the returned
slice is those first `n` words, its length is `n`, and `n ≤ 2k`. -/
theorem RunCompress_result (env : Env) (codec : Integer) (inp : List Int) (prof : Bool)
    (hfit : (inp.length : Int) * 2 < 2 ^ (env.intBits - 1))
    (hmake : inp.length * 2 ≤ env.maxLen) :
    let buf := List.replicate (inp.length * 2) (0 : Int)
    let r := codec.Compress inp 0 inp.length buf 0
    (Compress env codec inp inp.length).trace
        = [.make ((inp.length : Int) * 2), .compress inp 0 inp.length buf 0] ∧
    (r.err = none → r.outpos ≤ inp.length * 2 →
      (Compress env codec inp inp.length).outcome =
        .returned ⟨env.since, some (r.out.take r.outpos), none⟩) ∧
    (∀ v, (RunCompress env codec inp inp.length prof).outcome = .returned v → v.err = none →
      codecCalls (RunCompress env codec inp inp.length prof).trace
          = [.compress inp 0 inp.length buf 0] ∧
        v.out = some (r.out.take r.outpos) ∧ (r.out.take r.outpos).length = r.outpos ∧
        r.outpos ≤ inp.length * 2) := by
  dsimp only
  have h0 : (0 : Int) ≤ (inp.length : Int) := by omega
  have hmax : (inp.length : Int) * 2 ≤ (env.maxLen : Int) := by omega
  have hlen := codec.compress_len inp 0 inp.length (List.replicate (inp.length * 2) 0) 0
  rw [List.length_replicate] at hlen
  obtain ⟨r, hr⟩ : ∃ r, codec.Compress inp 0 inp.length
      (List.replicate (((inp.length : Nat) : Int).toNat * 2) 0) 0 = r := ⟨_, rfl⟩
  rw [Compress_eq env codec inp _ h0 hfit hmax r hr]
  simp only [Int.toNat_ofNat] at hr
  rw [hr] at hlen ⊢
  refine ⟨rfl, ?_, ?_⟩
  · intro herr hn
    simp only [Int.toNat_ofNat, herr, hn, if_true]
  · intro v hv hverr
    by_cases hfile : prof = true → env.createErr "cpu.compress.pprof" = none
    · rw [RunCompress_eq env codec inp _ prof h0 hfit hmax hfile r (by simpa using hr)] at hv ⊢
      simp only [Int.toNat_ofNat] at hv ⊢
      rcases herr : r.err with _ | e
      · rw [herr] at hv
        by_cases hn : r.outpos ≤ inp.length * 2
        · simp only [hn, if_true, Outcome.returned.injEq] at hv
          subst hv
          refine ⟨?_, rfl, ?_, hn⟩
          · cases prof <;> simp [codecCalls]
          · simp only [List.length_take]
            omega
        · simp [hn] at hv
      · rw [herr] at hv
        simp only [Outcome.returned.injEq] at hv
        subst hv
        simp at hverr
    · push_neg at hfile
      obtain ⟨hp, hne⟩ := hfile
      obtain ⟨e, he⟩ := Option.ne_none_iff_exists'.mp hne
      subst hp
      rw [RunCompress_nofile env codec inp _ e
        (by rw [wrapInt_fits _ _ (by omega) hfit]; omega)
        (by rw [wrapInt_fits _ _ (by omega) hfit]; exact hmax) he] at hv
      simp at hv

/-- C6, at a concrete input: the plain codec on `[5, 6]`. -/
theorem RunCompress_result_witness :
    (Compress quietEnv plainRemainder [5, 6] 2).outcome
      = .returned ⟨1000, some [5, 6], none⟩ :=
  (RunCompress_result quietEnv plainRemainder [5, 6] false (by decide) (by decide)).2.1
    (by decide) (by decide)

/-- C5, as stated, fails: the codec call succeeds and the returned sequence does
not have length `k`. The idle codec leaves the output cursor at 0, and
`Uncompress(codec, [], 1)` returns the empty slice. -/
theorem RunUncompress_length_counterexample :
    (idleCodec.Uncompress [] 0 0 [0] 0).err = none ∧
    (Uncompress quietEnv idleCodec [] 1).outcome = .returned ⟨1000, some [], none⟩ ∧
    ([] : List Int).length ≠ 1 := by
  decide

/-- C5, amended. For every codec, compressed input and `k`: when
`make([]int32, k)` fails (`k` negative or above the largest length `make`
allocates), `RunUncompress` panics before any codec call. Otherwise
`Uncompress` calls the codec's `Uncompress` once, with the input, input cursor
0, the number of compressed words as logical length, a fresh zero-filled buffer
of length `k` and output cursor 0. When that call reports no error and leaves
the output cursor at `n ≤ k`, the run returns that buffer truncated to `n`, so
the returned sequence has length exactly `n`, which is `k` exactly when the
codec advanced the output cursor to `k`; when the call reports no error and
leaves the cursor beyond `k`, the slice expression panics and nothing is
returned. Whenever a run, profiled or not, returns a nil error, the allocation
succeeded and the returned sequence is that truncation, of length `n ≤ k`. -/
theorem RunUncompress_result (env : Env) (codec : Integer) (inp : List Int) (k : Int)
    (prof : Bool) :
    let buf := List.replicate k.toNat (0 : Int)
    let r := codec.Uncompress inp 0 inp.length buf 0
    (k < 0 ∨ (env.maxLen : Int) < k →
      RunUncompress env codec inp k prof = ⟨[.make k], .panicked⟩) ∧
    (0 ≤ k → k ≤ (env.maxLen : Int) →
      (Uncompress env codec inp k).trace = [.make k, .uncompress inp 0 inp.length buf 0] ∧
      (r.err = none → r.outpos ≤ k.toNat →
        (Uncompress env codec inp k).outcome =
          .returned ⟨env.since, some (r.out.take r.outpos), none⟩ ∧
        (r.out.take r.outpos).length = r.outpos ∧
        ((r.out.take r.outpos).length = k.toNat ↔ r.outpos = k.toNat)) ∧
      (r.err = none → k.toNat < r.outpos →
        (Uncompress env codec inp k).outcome = .panicked)) ∧
    (∀ v, (RunUncompress env codec inp k prof).outcome = .returned v → v.err = none →
      0 ≤ k ∧ k ≤ (env.maxLen : Int) ∧
      codecCalls (RunUncompress env codec inp k prof).trace
          = [.uncompress inp 0 inp.length buf 0] ∧
        v.out = some (r.out.take r.outpos) ∧ (r.out.take r.outpos).length = r.outpos ∧
        r.outpos ≤ k.toNat ∧ ((r.out.take r.outpos).length = k.toNat ↔ r.outpos = k.toNat)) := by
  dsimp only
  have hlen := codec.uncompress_len inp 0 inp.length (List.replicate k.toNat 0) 0
  rw [List.length_replicate] at hlen
  obtain ⟨r, hr⟩ : ∃ r, codec.Uncompress inp 0 inp.length
      (List.replicate k.toNat 0) 0 = r := ⟨_, rfl⟩
  rw [hr] at hlen ⊢
  have hpanic : k < 0 ∨ (env.maxLen : Int) < k →
      RunUncompress env codec inp k prof = ⟨[.make k], .panicked⟩ := by
    intro h
    simp [RunUncompress, h]
  have hl : r.outpos ≤ k.toNat → (r.out.take r.outpos).length = r.outpos := by
    intro hn
    simp only [List.length_take]
    omega
  refine ⟨hpanic, ?_, ?_⟩
  · intro h0 hmax
    rw [Uncompress_eq env codec inp k h0 hmax r hr]
    refine ⟨rfl, ?_, ?_⟩
    · intro herr hn
      simp only [herr, hn, if_true]
      exact ⟨trivial, hl hn, by rw [hl hn]⟩
    · intro herr hn
      have hn' : ¬ (r.outpos ≤ k.toNat) := by omega
      simp only [herr, hn', if_false]
  · intro v hv hverr
    by_cases hbad : k < 0 ∨ (env.maxLen : Int) < k
    · rw [hpanic hbad] at hv
      simp at hv
    · have h0 : 0 ≤ k := by omega
      have hmax : k ≤ (env.maxLen : Int) := by omega
      by_cases hfile : prof = true → env.createErr "cpu.uncompress.pprof" = none
      · rw [RunUncompress_eq env codec inp k prof h0 hmax hfile r hr] at hv ⊢
        simp only at hv ⊢
        rcases herr : r.err with _ | e
        · rw [herr] at hv
          by_cases hn : r.outpos ≤ k.toNat
          · simp only [hn, if_true, Outcome.returned.injEq] at hv
            subst hv
            refine ⟨h0, hmax, ?_, rfl, hl hn, hn, by rw [hl hn]⟩
            cases prof <;> simp [codecCalls]
          · simp [hn] at hv
        · rw [herr] at hv
          simp only [Outcome.returned.injEq] at hv
          subst hv
          simp at hverr
      · push_neg at hfile
        obtain ⟨hp, hne⟩ := hfile
        obtain ⟨e, he⟩ := Option.ne_none_iff_exists'.mp hne
        subst hp
        rw [RunUncompress_nofile env codec inp k e h0 hmax he] at hv
        simp at hv

/-- C5, amended, at a concrete input: the plain codec fills a destination of
length 2 from the words `[5, 6]`. -/
theorem RunUncompress_result_witness :
    (Uncompress quietEnv plainRemainder [5, 6] 2).outcome
      = .returned ⟨1000, some [5, 6], none⟩ :=
  (((RunUncompress_result quietEnv plainRemainder [5, 6] 2 false).2.1 (by decide)
    (by decide)).2.1 (by decide) (by decide)).1

/-- C7. On the unprofiled path, for every codec, input and length: when `make`
fails (its length, `length*2` in `RunCompress` and `length` in `RunUncompress`,
is negative or above the largest length `make` allocates) the run panics in
`make` before any codec call and returns nothing; otherwise the run makes
exactly one codec call, and an error of that call is returned unchanged with
duration 0 and a nil output. Whatever a run returns carries exactly the error
of the codec call, so the returned error is non-nil if and only if the codec's
is, and nil on success. -/
theorem Run_error_surfaced (env : Env) (codec : Integer) (inp : List Int) (length : Int) :
    let n := wrapInt env.intBits (length * 2)
    let rc := codec.Compress inp 0 inp.length (List.replicate n.toNat 0) 0
    let ru := codec.Uncompress inp 0 inp.length (List.replicate length.toNat 0) 0
    (n < 0 ∨ (env.maxLen : Int) < n →
      RunCompress env codec inp length false = ⟨[.make n], .panicked⟩) ∧
    (length < 0 ∨ (env.maxLen : Int) < length →
      RunUncompress env codec inp length false = ⟨[.make length], .panicked⟩) ∧
    (0 ≤ n → n ≤ (env.maxLen : Int) →
      codecCalls (RunCompress env codec inp length false).trace
        = [.compress inp 0 inp.length (List.replicate n.toNat 0) 0] ∧
      ∀ e, rc.err = some e →
        (RunCompress env codec inp length false).outcome = .returned ⟨0, none, some e⟩) ∧
    (0 ≤ length → length ≤ (env.maxLen : Int) →
      codecCalls (RunUncompress env codec inp length false).trace
        = [.uncompress inp 0 inp.length (List.replicate length.toNat 0) 0] ∧
      ∀ e, ru.err = some e →
        (RunUncompress env codec inp length false).outcome = .returned ⟨0, none, some e⟩) ∧
    (∀ v, (RunCompress env codec inp length false).outcome = .returned v →
      (0 ≤ n ∧ n ≤ (env.maxLen : Int)) ∧ v.err = rc.err ∧
        (v.err ≠ none → v.duration = 0 ∧ v.out = none)) ∧
    (∀ v, (RunUncompress env codec inp length false).outcome = .returned v →
      (0 ≤ length ∧ length ≤ (env.maxLen : Int)) ∧ v.err = ru.err ∧
        (v.err ≠ none → v.duration = 0 ∧ v.out = none)) := by
  dsimp only
  obtain ⟨rc, hrc⟩ : ∃ r, codec.Compress inp 0 inp.length
      (List.replicate (wrapInt env.intBits (length * 2)).toNat 0) 0 = r := ⟨_, rfl⟩
  obtain ⟨ru, hru⟩ : ∃ r, codec.Uncompress inp 0 inp.length
      (List.replicate length.toNat 0) 0 = r := ⟨_, rfl⟩
  rw [hrc, hru]
  have hcp : wrapInt env.intBits (length * 2) < 0
      ∨ (env.maxLen : Int) < wrapInt env.intBits (length * 2) →
      RunCompress env codec inp length false
        = ⟨[.make (wrapInt env.intBits (length * 2))], .panicked⟩ := by
    intro h
    simp [RunCompress, h]
  have hup : length < 0 ∨ (env.maxLen : Int) < length →
      RunUncompress env codec inp length false = ⟨[.make length], .panicked⟩ := by
    intro h
    simp [RunUncompress, h]
  refine ⟨hcp, hup, ?_, ?_, ?_, ?_⟩
  · intro h0 hmax
    rw [RunCompress_eq_wrap env codec inp length false h0 hmax (by simp) rc hrc]
    refine ⟨by simp [codecCalls], ?_⟩
    intro e he
    simp [he]
  · intro h0 hmax
    rw [RunUncompress_eq env codec inp length false h0 hmax (by simp) ru hru]
    refine ⟨by simp [codecCalls], ?_⟩
    intro e he
    simp [he]
  · intro v hv
    by_cases hbad : wrapInt env.intBits (length * 2) < 0
        ∨ (env.maxLen : Int) < wrapInt env.intBits (length * 2)
    · rw [hcp hbad] at hv
      simp at hv
    · have h0 : 0 ≤ wrapInt env.intBits (length * 2) := by omega
      have hmax : wrapInt env.intBits (length * 2) ≤ (env.maxLen : Int) := by omega
      rw [RunCompress_eq_wrap env codec inp length false h0 hmax (by simp) rc hrc] at hv
      refine ⟨⟨h0, hmax⟩, ?_⟩
      rcases herr : rc.err with _ | e
      · rw [herr] at hv
        by_cases hn : rc.outpos ≤ (wrapInt env.intBits (length * 2)).toNat
        · simp only [hn, if_true, Outcome.returned.injEq] at hv
          subst hv
          simp
        · simp [hn] at hv
      · rw [herr] at hv
        simp only [Outcome.returned.injEq] at hv
        subst hv
        simp
  · intro v hv
    by_cases hbad : length < 0 ∨ (env.maxLen : Int) < length
    · rw [hup hbad] at hv
      simp at hv
    · have h0 : 0 ≤ length := by omega
      have hmax : length ≤ (env.maxLen : Int) := by omega
      rw [RunUncompress_eq env codec inp length false h0 hmax (by simp) ru hru] at hv
      refine ⟨⟨h0, hmax⟩, ?_⟩
      rcases herr : ru.err with _ | e
      · rw [herr] at hv
        by_cases hn : ru.outpos ≤ length.toNat
        · simp only [hn, if_true, Outcome.returned.injEq] at hv
          subst hv
          simp
        · simp [hn] at hv
      · rw [herr] at hv
        simp only [Outcome.returned.injEq] at hv
        subst hv
        simp

/-- A length above what `make` allocates: `RunCompress` on length `2^61` and
`RunUncompress` on length `2^62` panic in `make` before any codec call. -/
theorem Run_len_out_of_range :
    RunCompress quietEnv failingCodec [1] (2 ^ 61) false = ⟨[.make (2 ^ 62)], .panicked⟩ ∧
    RunUncompress quietEnv failingCodec [1] (2 ^ 62) false = ⟨[.make (2 ^ 62)], .panicked⟩ := by
  decide

/-- C7, at a concrete input: the error of the failing codec comes back
unchanged from `RunCompress`, with duration 0 and a nil output. -/
theorem Run_error_surfaced_witness :
    (RunCompress quietEnv failingCodec [1] 1 false).outcome
      = .returned ⟨0, none, some "codec error"⟩ :=
  ((Run_error_surfaced quietEnv failingCodec [1] 1).2.2.1 (by decide) (by decide)).2
    "codec error" rfl

/-! ## Profiling -/

/-- C10, the failing input: a profiled run on a codec whose `Compress` returns an
error creates the profile file, starts the CPU profiler, calls the codec,
returns the error and closes the file without stopping the profiler; the same
happens in `RunUncompress`. A profiling session is left active on that return
path. -/
theorem Pprof_error_path_leaves_profiler_active :
    PprofCompress quietEnv failingCodec [1] 1 =
      ⟨[.make 2, .create "cpu.compress.pprof", .startCPUProfile,
          .compress [1] 0 1 [0, 0] 0, .close "cpu.compress.pprof"],
        .returned ⟨0, none, some "codec error"⟩⟩ ∧
    profiling false (PprofCompress quietEnv failingCodec [1] 1).trace = true ∧
    PprofUncompress quietEnv failingCodec [1] 1 =
      ⟨[.make 1, .create "cpu.uncompress.pprof", .startCPUProfile,
          .uncompress [1] 0 1 [0] 0, .close "cpu.uncompress.pprof"],
        .returned ⟨0, none, some "codec error"⟩⟩ ∧
    profiling false (PprofUncompress quietEnv failingCodec [1] 1).trace = true := by
  decide

/-- On every return path of a profiled run the profiler is active afterwards
exactly when the codec returned an error, and an unprofiled run leaves the
profiler state as it found it. -/
theorem RunCompress_profiling (env : Env) (codec : Integer) (inp : List Int) (length : Int)
    (active : Bool) (hlen : 0 ≤ length) (hfit : length * 2 < 2 ^ (env.intBits - 1))
    (hmax : length * 2 ≤ (env.maxLen : Int))
    (hfile : env.createErr "cpu.compress.pprof" = none) :
    profiling active (RunCompress env codec inp length true).trace
      = (codec.Compress inp 0 inp.length (List.replicate (length.toNat * 2) 0) 0).err.isSome ∧
    profiling active (RunCompress env codec inp length false).trace = active := by
  obtain ⟨r, hr⟩ : ∃ r, codec.Compress inp 0 inp.length
      (List.replicate (length.toNat * 2) 0) 0 = r := ⟨_, rfl⟩
  rw [RunCompress_eq env codec inp length true hlen hfit hmax (fun _ => hfile) r hr,
    RunCompress_eq env codec inp length false hlen hfit hmax (by simp) r hr, hr]
  rcases herr : r.err with _ | e <;> simp [profiling]

/-! ## The harness: `TestCodec` -/

/-- The verification loop returns exactly when every compared index holds the
same element on both sides. -/
theorem recoverLoop_returned (inp out2 : List Int) (k : Int) (n i : Nat) :
    recoverLoop inp out2 k n i = .returned () ↔
      ∀ j, i ≤ j → j < i + n → ∃ a, inp[j]? = some a ∧ out2[j]? = some a := by
  induction n generalizing i with
  | zero =>
    simp only [recoverLoop, true_iff]
    intro j h1 h2
    omega
  | succ n ih =>
    rw [recoverLoop]
    constructor
    · intro h
      rcases hi : inp[i]? with _ | a
      · simp [hi] at h
      · rcases ho : out2[i]? with _ | b
        · simp [hi, ho] at h
        · simp only [hi, ho] at h
          by_cases hab : a = b
          · subst hab
            simp only [ne_eq, not_true_eq_false, if_false] at h
            intro j h1 h2
            rcases Nat.eq_or_lt_of_le h1 with hj | hj
            · subst hj
              exact ⟨a, hi, ho⟩
            · exact (ih (i + 1)).mp h j hj (by omega)
          · simp [hab] at h
    · intro h
      obtain ⟨a, hi, ho⟩ := h i le_rfl (by omega)
      simp only [hi, ho, ne_eq, not_true_eq_false, if_false]
      exact (ih (i + 1)).mpr fun j h1 h2 => h j (by omega) (by omega)

/-- The verification loop exits with the report of the least index at which the
two sides hold different elements, when both sides are defined up to there. -/
theorem recoverLoop_fatal (inp out2 : List Int) (k : Int) (n i j : Nat) (a b : Int)
    (hij : i ≤ j) (hjn : j < i + n)
    (hbefore : ∀ m, i ≤ m → m < j → ∃ c, inp[m]? = some c ∧ out2[m]? = some c)
    (ha : inp[j]? = some a) (hb : out2[j]? = some b) (hab : a ≠ b) :
    recoverLoop inp out2 k n i = .fatal (.recovering j a b k out2.length) := by
  induction n generalizing i with
  | zero => omega
  | succ n ih =>
    rw [recoverLoop]
    rcases Nat.eq_or_lt_of_le hij with h | h
    · subst h
      simp [ha, hb, hab]
    · obtain ⟨c, hc1, hc2⟩ := hbefore i le_rfl h
      simp only [hc1, hc2, ne_eq, not_true_eq_false, if_false]
      exact ih (i + 1) h (by omega) fun m h1 h2 => hbefore m (by omega) h2

/-- A size above the available data is skipped without any effect. -/
theorem TestCodec_skip (env : Env) (codec : Integer) (inp : List Int) (k : Int)
    (sizes : List Int) (hk : (inp.length : Int) < k) :
    TestCodec env codec inp (k :: sizes) = TestCodec env codec inp sizes := by
  rw [TestCodec]
  simp [hk]

/-- A trial whose compress and decompress calls both return without error goes
on to the verification loop, which decides how the trial ends. -/
theorem TestCodec_trial (env : Env) (codec : Integer) (inp : List Int) (k : Nat)
    (sizes : List Int) (hk : k ≤ inp.length) (d1 d2 : Int) (c recovered : List Int)
    (hc : (Compress env codec (inp.take k) k).outcome = .returned ⟨d1, some c, none⟩)
    (hu : (Uncompress env codec c k).outcome = .returned ⟨d2, some recovered, none⟩) :
    TestCodec env codec inp ((k : Int) :: sizes) =
      match recoverLoop inp recovered k k 0 with
      | .returned _ =>
        ⟨(Compress env codec (inp.take k) k).trace ++ (Uncompress env codec c k).trace
            ++ [.printf c.length k] ++ (TestCodec env codec inp sizes).trace,
          (TestCodec env codec inp sizes).outcome⟩
      | .fatal f =>
        ⟨(Compress env codec (inp.take k) k).trace ++ (Uncompress env codec c k).trace
            ++ [.printf c.length k], .fatal f⟩
      | .panicked =>
        ⟨(Compress env codec (inp.take k) k).trace ++ (Uncompress env codec c k).trace
            ++ [.printf c.length k], .panicked⟩ := by
  have h1 : ¬ ((k : Int) > (inp.length : Int)) := by omega
  have h2 : ¬ ((k : Int) < 0) := by omega
  rw [TestCodec]
  simp only [h1, h2, if_false, Int.toNat_ofNat, hc, Option.getD_some, hu]

/-- C4, as stated, fails: compress and decompress both succeed, the recovered
sequence `[]` does not equal the input at index 0, and `TestCodec` does not
abort with the report of that index: it panics on `out2[0]`. -/
theorem TestCodec_short_recovered_counterexample :
    (Compress quietEnv idleCodec [7] 1).outcome = .returned ⟨1000, some [], none⟩ ∧
    (Uncompress quietEnv idleCodec [] 1).outcome = .returned ⟨1000, some [], none⟩ ∧
    TestCodec quietEnv idleCodec [7] [1] =
      ⟨[.make 2, .compress [7] 0 1 [0, 0] 0, .make 1, .uncompress [] 0 0 [0] 0, .printf 0 1],
        .panicked⟩ := by
  decide

/-- C4, amended. For every trial of `TestCodec` with size `k` in which compress
and decompress both succeed: if the recovered sequence holds `in[i]` at every
index `i < k`, the trial passes and the run goes on with the later sizes; if
not, the run ends with this trial, so no later trial is run; and when the least
index `i` at which the two differ lies inside the recovered sequence,
`TestCodec` aborts there, reporting `i`, `in[i]`, `recovered[i]`, `k` and
`len(recovered)`. -/
theorem TestCodec_elementwise (env : Env) (codec : Integer) (inp : List Int) (k : Nat)
    (sizes : List Int) (hk : k ≤ inp.length) (d1 d2 : Int) (c recovered : List Int)
    (hc : (Compress env codec (inp.take k) k).outcome = .returned ⟨d1, some c, none⟩)
    (hu : (Uncompress env codec c k).outcome = .returned ⟨d2, some recovered, none⟩) :
    let trial := (Compress env codec (inp.take k) k).trace ++ (Uncompress env codec c k).trace
      ++ [Event.printf c.length k]
    let run := TestCodec env codec inp ((k : Int) :: sizes)
    ((∀ i, i < k → recovered[i]? = inp[i]?) →
      run = ⟨trial ++ (TestCodec env codec inp sizes).trace,
        (TestCodec env codec inp sizes).outcome⟩) ∧
    (¬ (∀ i, i < k → recovered[i]? = inp[i]?) →
      run.trace = trial ∧ (run.outcome = .panicked ∨ ∃ f, run.outcome = .fatal f)) ∧
    (∀ i a b, i < k → (∀ j, j < i → recovered[j]? = inp[j]?) →
      inp[i]? = some a → recovered[i]? = some b → a ≠ b →
      run = ⟨trial, .fatal (.recovering i a b k recovered.length)⟩) := by
  dsimp only
  rw [TestCodec_trial env codec inp k sizes hk d1 d2 c recovered hc hu]
  have hdef : ∀ j, j < k → ∃ a, inp[j]? = some a := fun j hj =>
    ⟨inp[j], List.getElem?_eq_getElem (by omega)⟩
  have hiff : recoverLoop inp recovered k k 0 = .returned () ↔
      ∀ i, i < k → recovered[i]? = inp[i]? := by
    rw [recoverLoop_returned]
    constructor
    · intro h i hi
      obtain ⟨a, h1, h2⟩ := h i (Nat.zero_le _) (by omega)
      rw [h1, h2]
    · intro h j _ hj
      obtain ⟨a, ha⟩ := hdef j (by omega)
      exact ⟨a, ha, by rw [h j (by omega), ha]⟩
  refine ⟨?_, ?_, ?_⟩
  · intro h
    rw [hiff.mpr h]
  · intro h
    rcases hl : recoverLoop inp recovered k k 0 with _ | f | _
    · exact absurd (hiff.mp hl) h
    · exact ⟨rfl, Or.inr ⟨f, rfl⟩⟩
    · exact ⟨rfl, Or.inl rfl⟩
  · intro i a b hi hbefore ha hb hab
    rw [recoverLoop_fatal inp recovered k k 0 i a b (Nat.zero_le _) (by omega)
      (fun m _ hm => by
        obtain ⟨x, hx⟩ := hdef m (by omega)
        exact ⟨x, hx, by rw [hbefore m hm, hx]⟩) ha hb hab]

/-- C4, amended, at a concrete input: a codec that stores nothing recovers `[0]`
from `[7]`, and the trial of size 1 aborts at index 0 reporting `in = 7`,
`recovered = 0`, original length 1 and recovered length 1; the size 1 that
follows in the list is not tried. -/
theorem TestCodec_elementwise_witness :
    TestCodec quietEnv blankCodec [7] [1, 1] =
      ⟨[.make 2, .compress [7] 0 1 [0, 0] 0, .make 1, .uncompress [] 0 0 [0] 0, .printf 0 1],
        .fatal (.recovering 0 7 0 1 1)⟩ := by
  have h := (TestCodec_elementwise quietEnv blankCodec [7] 1 [1] (by decide)
    1000 1000 [] [0] (by decide) (by decide)).2.2 0 7 0 (by decide) (by decide) (by decide)
    (by decide) (by decide)
  exact h

/-- After a compress call that returned without error, the trial goes on to
`Uncompress` on the returned words, whatever happens afterwards. -/
theorem TestCodec_trace_uncompress (env : Env) (codec : Integer) (inp : List Int) (k : Nat)
    (sizes : List Int) (hk : k ≤ inp.length) (d : Int) (words : Option (List Int))
    (hc : (Compress env codec (inp.take k) k).outcome = .returned ⟨d, words, none⟩) :
    ∃ rest, (TestCodec env codec inp ((k : Int) :: sizes)).trace =
      (Compress env codec (inp.take k) k).trace
        ++ (Uncompress env codec (words.getD []) k).trace ++ rest := by
  have h1 : ¬ ((k : Int) > (inp.length : Int)) := by omega
  have h2 : ¬ ((k : Int) < 0) := by omega
  rw [TestCodec]
  simp only [h1, h2, if_false, Int.toNat_ofNat, hc]
  rcases hu : (Uncompress env codec (words.getD []) k).outcome with ru | f | _
  · simp only
    rcases hue : ru.err with _ | e
    · simp only
      rcases hl : recoverLoop inp (ru.out.getD []) k k 0 with _ | f | _
      · exact ⟨[Event.printf (words.getD []).length k] ++ (TestCodec env codec inp sizes).trace,
          by simp only [List.append_assoc]⟩
      · exact ⟨_, rfl⟩
      · exact ⟨_, rfl⟩
    · exact ⟨[], by simp⟩
  · exact ⟨[], by simp⟩
  · exact ⟨[], by simp⟩

/-- C9. For every trial of `TestCodec` with size `k` (on an input whose doubled
length is representable in `int` and within what `make` allocates) whose
compress call returns a nil error,
with `n` the output cursor the codec left: the returned compressed sequence is
the first `n` words of the output buffer, and the trial calls the
codec's `Uncompress` with exactly those `n` words as input, logical input
length `n`, both cursors at 0 and a zero-filled destination of length `k`, right
after the compress call. -/
theorem TestCodec_uncompress_input (env : Env) (codec : Integer) (inp : List Int) (k : Nat)
    (sizes : List Int) (hk : k ≤ inp.length)
    (hfit : (inp.length : Int) * 2 < 2 ^ (env.intBits - 1))
    (hmake : inp.length * 2 ≤ env.maxLen) (rc : Result)
    (hc : (Compress env codec (inp.take k) k).outcome = .returned rc) (herr : rc.err = none) :
    let r := codec.Compress (inp.take k) 0 k (List.replicate (k * 2) 0) 0
    let words := r.out.take r.outpos
    rc.out = some words ∧ words.length = r.outpos ∧
    ∃ rest, (TestCodec env codec inp ((k : Int) :: sizes)).trace =
      [.make ((k : Int) * 2), .compress (inp.take k) 0 k (List.replicate (k * 2) 0) 0,
        .make (k : Int), .uncompress words 0 r.outpos (List.replicate k 0) 0] ++ rest := by
  dsimp only
  have h0 : (0 : Int) ≤ (k : Int) := by omega
  have hsrc : (inp.take k).length = k := by
    rw [List.length_take]
    omega
  obtain ⟨r, hr⟩ : ∃ r, codec.Compress (inp.take k) 0 k (List.replicate (k * 2) 0) 0 = r :=
    ⟨_, rfl⟩
  have hr' : codec.Compress (inp.take k) 0 (inp.take k).length
      (List.replicate ((k : Int).toNat * 2) 0) 0 = r := by
    rw [hsrc, Int.toNat_ofNat]
    exact hr
  have hlen : r.out.length = k * 2 := by
    rw [← hr, codec.compress_len, List.length_replicate]
  have hfitk : (k : Int) * 2 < 2 ^ (env.intBits - 1) := lt_of_le_of_lt (by omega) hfit
  have hmax2 : (k : Int) * 2 ≤ (env.maxLen : Int) := by omega
  have hmax1 : (k : Int) ≤ (env.maxLen : Int) := by omega
  have hceq := Compress_eq env codec (inp.take k) k h0 hfitk hmax2 r hr'
  rw [hr]
  rw [hceq] at hc
  simp only [Int.toNat_ofNat, hsrc] at hc hceq
  rcases hre : r.err with _ | e
  · rw [hre] at hc
    by_cases hn : r.outpos ≤ k * 2
    · simp only [hn, if_true, Outcome.returned.injEq] at hc
      have hwl : (r.out.take r.outpos).length = r.outpos := by
        rw [List.length_take]
        omega
      have hc2 : (Compress env codec (inp.take k) k).outcome
          = .returned ⟨env.since, some (r.out.take r.outpos), none⟩ := by
        rw [hceq, hre]
        simp only [hn, if_true]
      obtain ⟨rest, hrest⟩ := TestCodec_trace_uncompress env codec inp k sizes hk _ _ hc2
      obtain ⟨ru, hru⟩ : ∃ ru, codec.Uncompress (r.out.take r.outpos) 0
          (r.out.take r.outpos).length (List.replicate ((k : Int).toNat) 0) 0 = ru := ⟨_, rfl⟩
      have hueq := Uncompress_eq env codec (r.out.take r.outpos) k h0 hmax1 ru hru
      refine ⟨by rw [← hc], hwl, rest, ?_⟩
      rw [hrest, hceq, Option.getD_some, hueq]
      simp only [Int.toNat_ofNat, hwl, List.cons_append, List.nil_append]
    · simp [hn] at hc
  · rw [hre] at hc
    simp only [Outcome.returned.injEq] at hc
    rw [← hc] at herr
    simp at herr

/-- C9, at a concrete input: the plain codec compresses `[5, 6]` (of `[5, 6, 7]`)
into two words, and `Uncompress` is called on those two words with logical
length 2 and a destination of length 2. -/
theorem TestCodec_uncompress_input_witness :
    ∃ rest, (TestCodec quietEnv plainRemainder [5, 6, 7] [2]).trace =
      [.make 4, .compress [5, 6] 0 2 [0, 0, 0, 0] 0,
        .make 2, .uncompress [5, 6] 0 2 [0, 0] 0] ++ rest :=
  (TestCodec_uncompress_input quietEnv plainRemainder [5, 6, 7] 2 [] (by decide) (by decide)
    (by decide) ⟨1000, some [5, 6], none⟩ (by decide) rfl).2.2

/-- A negative size panics on the slice `in[:k]` before any effect. -/
theorem TestCodec_negative (env : Env) (codec : Integer) (inp : List Int) (k : Int)
    (sizes : List Int) (hk : k < 0) :
    TestCodec env codec inp (k :: sizes) = ⟨[], .panicked⟩ := by
  have h1 : ¬ (k > (inp.length : Int)) := by omega
  rw [TestCodec]
  simp [h1, hk]

/-- The calls of composite compress: the bulk call when `aligned > 0`, then the
remainder call when the bulk call did not fail and `k mod b > 0`. -/
theorem Composition_compress_calls (bulk : Bulk) (remainder : Integer) (inp : List Int)
    (inpos k : Nat) (out : List Int) (outpos : Nat) (afterBulk : CallResult)
    (hafter : afterBulk = if 0 < k - k % bulk.blockSize then
      bulk.Compress inp inpos (k - k % bulk.blockSize) out outpos
      else ⟨out, inpos, outpos, none⟩) :
    (Composition.compress bulk remainder inp inpos k out outpos).1 =
      (if 0 < k - k % bulk.blockSize then
        [⟨.bulk, inp, inpos, k - k % bulk.blockSize, out, outpos⟩] else []) ++
      (if afterBulk.err = none ∧ 0 < k % bulk.blockSize then
        [⟨.remainder, inp, afterBulk.inpos, k % bulk.blockSize, afterBulk.out,
          afterBulk.outpos⟩] else []) := by
  subst hafter
  have hmod : k % bulk.blockSize ≤ k := Nat.mod_le _ _
  have hsub : k - (k - k % bulk.blockSize) = k % bulk.blockSize := by omega
  unfold Composition.compress
  simp only [hsub, gt_iff_lt]
  by_cases ha : 0 < k - k % bulk.blockSize
  · simp only [ha, if_true]
    rcases he : (bulk.Compress inp inpos (k - k % bulk.blockSize) out outpos).err with _ | e
    · by_cases hr : 0 < k % bulk.blockSize
      · simp [hr]
      · simp [hr]
    · simp
  · simp only [ha, if_false]
    by_cases hr : 0 < k % bulk.blockSize
    · simp [hr]
    · simp [hr]

/-- The calls of composite uncompress, for a destination with room for `k`
elements from the output cursor on: the bulk call on the destination up to
`outpos + aligned` when `aligned > 0`, then the remainder call when the bulk
call did not fail and `k mod b > 0`. -/
theorem Composition_uncompress_calls (bulk : Bulk) (remainder : Integer) (inp : List Int)
    (inpos inlength : Nat) (out : List Int) (outpos k : Nat) (afterBulk : CallResult)
    (hk : k = out.length - outpos)
    (hafter : afterBulk = if 0 < k - k % bulk.blockSize then
      ⟨(bulk.Uncompress inp inpos inlength
            (out.take (outpos + (k - k % bulk.blockSize))) outpos).out
          ++ out.drop (outpos + (k - k % bulk.blockSize)),
        (bulk.Uncompress inp inpos inlength
            (out.take (outpos + (k - k % bulk.blockSize))) outpos).inpos,
        (bulk.Uncompress inp inpos inlength
            (out.take (outpos + (k - k % bulk.blockSize))) outpos).outpos,
        (bulk.Uncompress inp inpos inlength
            (out.take (outpos + (k - k % bulk.blockSize))) outpos).err⟩
      else ⟨out, inpos, outpos, none⟩) :
    (Composition.uncompress bulk remainder inp inpos inlength out outpos).1 =
      (if 0 < k - k % bulk.blockSize then
        [⟨.bulk, inp, inpos, inlength, out.take (outpos + (k - k % bulk.blockSize)), outpos⟩]
        else []) ++
      (if afterBulk.err = none ∧ 0 < k % bulk.blockSize then
        [⟨.remainder, inp, afterBulk.inpos, inlength - (afterBulk.inpos - inpos), afterBulk.out,
          afterBulk.outpos⟩] else []) := by
  subst hafter
  subst hk
  have hmod : (out.length - outpos) % bulk.blockSize ≤ out.length - outpos := Nat.mod_le _ _
  have hsub : (out.length - outpos) - ((out.length - outpos)
      - (out.length - outpos) % bulk.blockSize) = (out.length - outpos) % bulk.blockSize := by
    omega
  unfold Composition.uncompress
  simp only [hsub, gt_iff_lt]
  by_cases ha : 0 < (out.length - outpos) - (out.length - outpos) % bulk.blockSize
  · simp only [ha, if_true]
    rcases he : (bulk.Uncompress inp inpos inlength (out.take (outpos + ((out.length - outpos)
        - (out.length - outpos) % bulk.blockSize))) outpos).err with _ | e
    · by_cases hr : 0 < (out.length - outpos) % bulk.blockSize
      · simp [hr]
      · simp [hr]
    · simp
  · simp only [ha, if_false]
    by_cases hr : 0 < (out.length - outpos) % bulk.blockSize
    · simp [hr]
    · simp [hr]

/-- C2. For every block size `b > 0` and every requested length `k`, with
`aligned = k - (k mod b)`: composite compress calls the bulk codec, when
`aligned > 0`, on the `aligned` elements from the input cursor on, writing from
the output cursor on; then, when that call did not fail and `k mod b > 0`, it
calls the remainder codec on `k mod b` elements from the input and output
cursor values the bulk call left, in the buffer the bulk call left; there is
no other call. The two lengths add up to `k`, the second is below `b`, and for
`b = 32`, `k = 100` they are 96 and 4. -/
theorem Composition_compress_split (bulk : Bulk) (remainder : Integer) (inp : List Int)
    (inpos k : Nat) (out : List Int) (outpos : Nat) (hb : 0 < bulk.blockSize) :
    let b := bulk.blockSize
    let aligned := k - k % b
    let afterBulk : CallResult :=
      if 0 < aligned then bulk.Compress inp inpos aligned out outpos
      else ⟨out, inpos, outpos, none⟩
    (Composition.compress bulk remainder inp inpos k out outpos).1 =
      (if 0 < aligned then [⟨.bulk, inp, inpos, aligned, out, outpos⟩] else []) ++
      (if afterBulk.err = none ∧ 0 < k % b then
        [⟨.remainder, inp, afterBulk.inpos, k % b, afterBulk.out, afterBulk.outpos⟩] else []) ∧
    aligned + k % b = k ∧ k % b < b ∧ (b = 32 → k = 100 → aligned = 96 ∧ k % b = 4) := by
  dsimp only
  have hmod : k % bulk.blockSize ≤ k := Nat.mod_le _ _
  refine ⟨Composition_compress_calls bulk remainder inp inpos k out outpos _ rfl, by omega,
    Nat.mod_lt _ hb, ?_⟩
  intro h32 h100
  rw [h32, h100]
  exact ⟨by decide, by decide⟩

/-- C2, at a concrete input: block size 4 and `k = 10` on the plain codecs; 8
elements go to the bulk codec and the last 2 to the remainder codec, which
starts at input cursor 8 and output cursor 8, where the bulk call stopped. -/
theorem Composition_compress_split_witness :
    (Composition.compress (plainBulk 4) plainRemainder [1, 2, 3, 4, 5, 6, 7, 8, 9, 10] 0 10
        (List.replicate 20 0) 0).1 =
      [⟨.bulk, [1, 2, 3, 4, 5, 6, 7, 8, 9, 10], 0, 8, List.replicate 20 0, 0⟩,
        ⟨.remainder, [1, 2, 3, 4, 5, 6, 7, 8, 9, 10], 8, 2,
          [1, 2, 3, 4, 5, 6, 7, 8] ++ List.replicate 12 0, 8⟩] :=
  (Composition_compress_split (plainBulk 4) plainRemainder [1, 2, 3, 4, 5, 6, 7, 8, 9, 10] 0 10
    (List.replicate 20 0) 0 (by decide)).1

/-- Membership in a list of two optional calls. -/
theorem mem_two_calls (p q : Prop) [Decidable p] [Decidable q] (x y c : SubCall) :
    c ∈ (if p then [x] else []) ++ (if q then [y] else []) ↔ (p ∧ c = x) ∨ (q ∧ c = y) := by
  by_cases hp : p <;> by_cases hq : q <;> simp [hp, hq]

/-- C3. For every block size `b > 0` and every length `k`, in composite compress
(`k` the requested length) and in composite uncompress (`k` the room of the
destination): the remainder codec is never called for zero elements (nor for a whole
block); the bulk codec is only called for a positive multiple of `b` elements (in uncompress,
with a destination that has room for exactly that many); when `k mod b = 0`
the remainder codec is not called at all; when `k < b` the bulk codec is not
called, and for `0 < k < b` the only call is the remainder call on all `k`
elements, with the arguments the composite codec received. -/
theorem Composition_zero_length_skip (bulk : Bulk) (remainder : Integer) (inp : List Int)
    (inpos inlength : Nat) (out : List Int) (outpos : Nat) (hb : 0 < bulk.blockSize) :
    let b := bulk.blockSize
    let k := inlength
    let room := out.length - outpos
    let calls := (Composition.compress bulk remainder inp inpos k out outpos).1
    let ucalls := (Composition.uncompress bulk remainder inp inpos inlength out outpos).1
    (∀ c ∈ calls, c.target = .remainder → 0 < c.inlength ∧ c.inlength < b) ∧
    (∀ c ∈ calls, c.target = .bulk → 0 < c.inlength ∧ b ∣ c.inlength) ∧
    (k % b = 0 → ∀ c ∈ calls, c.target ≠ .remainder) ∧
    (k < b → ∀ c ∈ calls, c.target ≠ .bulk) ∧
    (0 < k → k < b → calls = [⟨.remainder, inp, inpos, k, out, outpos⟩]) ∧
    (∀ c ∈ ucalls, c.target = .remainder → 0 < room % b) ∧
    (∀ c ∈ ucalls, c.target = .bulk →
      0 < c.out.length - c.outpos ∧ b ∣ c.out.length - c.outpos ∧
        c.out.length - c.outpos = room - room % b) ∧
    (room % b = 0 → ∀ c ∈ ucalls, c.target ≠ .remainder) ∧
    (room < b → ∀ c ∈ ucalls, c.target ≠ .bulk) ∧
    (0 < room → room < b → ucalls = [⟨.remainder, inp, inpos, inlength, out, outpos⟩]) := by
  dsimp only
  have hmod : inlength % bulk.blockSize ≤ inlength := Nat.mod_le _ _
  have hdvd : bulk.blockSize ∣ inlength - inlength % bulk.blockSize :=
    Nat.dvd_sub_mod inlength
  have hmod2 : (out.length - outpos) % bulk.blockSize ≤ out.length - outpos := Nat.mod_le _ _
  have hdvd2 : bulk.blockSize ∣ (out.length - outpos) - (out.length - outpos) % bulk.blockSize :=
    Nat.dvd_sub_mod _
  obtain ⟨a1, ha1⟩ : ∃ a : CallResult, a = if 0 < inlength - inlength % bulk.blockSize then
      bulk.Compress inp inpos (inlength - inlength % bulk.blockSize) out outpos
      else ⟨out, inpos, outpos, none⟩ := ⟨_, rfl⟩
  have hc1 := Composition_compress_calls bulk remainder inp inpos inlength out outpos a1 ha1
  obtain ⟨a2, ha2⟩ : ∃ a : CallResult, a =
      if 0 < (out.length - outpos) - (out.length - outpos) % bulk.blockSize then
      ⟨(bulk.Uncompress inp inpos inlength (out.take (outpos + ((out.length - outpos)
            - (out.length - outpos) % bulk.blockSize))) outpos).out
          ++ out.drop (outpos + ((out.length - outpos)
            - (out.length - outpos) % bulk.blockSize)),
        (bulk.Uncompress inp inpos inlength (out.take (outpos + ((out.length - outpos)
            - (out.length - outpos) % bulk.blockSize))) outpos).inpos,
        (bulk.Uncompress inp inpos inlength (out.take (outpos + ((out.length - outpos)
            - (out.length - outpos) % bulk.blockSize))) outpos).outpos,
        (bulk.Uncompress inp inpos inlength (out.take (outpos + ((out.length - outpos)
            - (out.length - outpos) % bulk.blockSize))) outpos).err⟩
      else ⟨out, inpos, outpos, none⟩ := ⟨_, rfl⟩
  have hc2 := Composition_uncompress_calls bulk remainder inp inpos inlength out outpos
    (out.length - outpos) a2 rfl ha2
  rw [hc1, hc2]
  simp only [mem_two_calls]
  have hl : (out.take (outpos + ((out.length - outpos)
      - (out.length - outpos) % bulk.blockSize))).length - outpos
      = (out.length - outpos) - (out.length - outpos) % bulk.blockSize := by
    rw [List.length_take]
    omega
  refine ⟨?_, ?_, ?_, ?_, ?_, ?_, ?_, ?_, ?_, ?_⟩
  · rintro c (⟨h1, rfl⟩ | ⟨h1, rfl⟩) ht
    · simp at ht
    · exact ⟨h1.2, Nat.mod_lt _ hb⟩
  · rintro c (⟨h1, rfl⟩ | ⟨h1, rfl⟩) ht
    · exact ⟨h1, hdvd⟩
    · simp at ht
  · rintro h0 c (⟨h1, rfl⟩ | ⟨h1, rfl⟩) ht
    · simp at ht
    · omega
  · rintro hlt c (⟨h1, rfl⟩ | ⟨h1, rfl⟩) ht
    · have hm : inlength % bulk.blockSize = inlength := Nat.mod_eq_of_lt hlt
      omega
    · simp at ht
  · intro hpos hlt
    have hm : inlength % bulk.blockSize = inlength := Nat.mod_eq_of_lt hlt
    have hz : ¬ (0 < inlength - inlength % bulk.blockSize) := by omega
    rw [if_neg hz] at ha1
    subst ha1
    simp [hm, hpos]
  · rintro c (⟨h1, rfl⟩ | ⟨h1, rfl⟩) ht
    · simp at ht
    · exact h1.2
  · rintro c (⟨h1, rfl⟩ | ⟨h1, rfl⟩) ht
    · rw [hl]
      exact ⟨h1, hdvd2, rfl⟩
    · simp at ht
  · rintro h0 c (⟨h1, rfl⟩ | ⟨h1, rfl⟩) ht
    · simp at ht
    · omega
  · rintro hlt c (⟨h1, rfl⟩ | ⟨h1, rfl⟩) ht
    · have hm : (out.length - outpos) % bulk.blockSize = out.length - outpos :=
        Nat.mod_eq_of_lt hlt
      omega
    · simp at ht
  · intro hpos hlt
    have hm : (out.length - outpos) % bulk.blockSize = out.length - outpos :=
      Nat.mod_eq_of_lt hlt
    have hz : ¬ (0 < (out.length - outpos) - (out.length - outpos) % bulk.blockSize) := by
      omega
    rw [if_neg hz] at ha2
    subst ha2
    simp [hm, hpos]

/-- C3, at concrete inputs with block size 32 on the plain codecs: for `k = 10`
the only call of composite compress is the remainder call on all 10 elements. -/
theorem Composition_zero_length_skip_witness :
    (Composition.compress (plainBulk 32) plainRemainder [1, 2, 3, 4, 5, 6, 7, 8, 9, 10] 0 10
        (List.replicate 20 0) 0).1 =
      [⟨.remainder, [1, 2, 3, 4, 5, 6, 7, 8, 9, 10], 0, 10, List.replicate 20 0, 0⟩] :=
  (Composition_zero_length_skip (plainBulk 32) plainRemainder [1, 2, 3, 4, 5, 6, 7, 8, 9, 10]
    0 10 (List.replicate 20 0) 0 (by decide)).2.2.2.2.1 (by decide) (by decide)

/-! ## Round trip -/

/-- One compress and one decompress through the harness, with a supported codec
and an element count it accepts, give back the first `k` elements. -/
theorem Supported_roundtrip (env : Env) (c : Integer) (ok : Nat → Prop) (hc : Supported c ok)
    (data : List Int) (k : Nat) (hok : ok k) (hk : k ≤ data.length)
    (hfit : (data.length : Int) * 2 < 2 ^ (env.intBits - 1))
    (hmake : data.length * 2 ≤ env.maxLen) :
    ∃ words recovered,
      (Compress env c (data.take k) k).outcome = .returned ⟨env.since, some words, none⟩ ∧
      (Uncompress env c words k).outcome = .returned ⟨env.since, some recovered, none⟩ ∧
      recovered.length = k ∧ ∀ i, i < k → recovered[i]? = data[i]? := by
  have h0 : (0 : Int) ≤ (k : Int) := by omega
  have hsrc : (data.take k).length = k := by
    rw [List.length_take]
    omega
  obtain ⟨r, hr⟩ : ∃ r, c.Compress (data.take k) 0 (data.take k).length
      (List.replicate ((k : Int).toNat * 2) 0) 0 = r := ⟨_, rfl⟩
  have hfitk : (k : Int) * 2 < 2 ^ (env.intBits - 1) := lt_of_le_of_lt (by omega) hfit
  have hmax2 : (k : Int) * 2 ≤ (env.maxLen : Int) := by omega
  have hmax1 : (k : Int) ≤ (env.maxLen : Int) := by omega
  have hceq := Compress_eq env c (data.take k) k h0 hfitk hmax2 r hr
  have hsup := hc (data.take k) 0 k (List.replicate (k * 2) 0) 0 hok (by omega)
    (by rw [List.length_replicate]; omega)
  simp only [Int.toNat_ofNat, hsrc] at hr hceq
  rw [hr] at hsup
  obtain ⟨herr, -, -, hpos, -, hdec⟩ := hsup
  have hrlen : r.out.length = k * 2 := by
    rw [← hr, c.compress_len, List.length_replicate]
  have hpos' : r.outpos ≤ k * 2 := by omega
  have hwl : (r.out.take r.outpos).length = r.outpos := by
    rw [List.length_take]
    omega
  obtain ⟨u, hu⟩ : ∃ u, c.Uncompress (r.out.take r.outpos) 0 (r.out.take r.outpos).length
      (List.replicate ((k : Int).toNat) 0) 0 = u := ⟨_, rfl⟩
  have hueq := Uncompress_eq env c (r.out.take r.outpos) k h0 hmax1 u hu
  have hd := hdec (r.out.take r.outpos) (r.out.take r.outpos).length (List.replicate k 0) 0
    (fun i _ hi => List.getElem?_take_of_lt hi) (by omega) (by simp)
  simp only [Int.toNat_ofNat] at hu hueq
  rw [hu] at hd
  obtain ⟨huerr, -, hupos, -, helems⟩ := hd
  have hulen : u.out.length = k := by
    rw [← hu, c.uncompress_len, List.length_replicate]
  refine ⟨r.out.take r.outpos, u.out.take u.outpos, ?_, ?_, ?_, ?_⟩
  · rw [hceq, herr]
    simp only [hpos', if_true]
  · rw [hueq, huerr]
    have : u.outpos ≤ k := by omega
    simp only [this, if_true]
  · rw [List.length_take]
    omega
  · intro i hi
    have h1 := helems i hi
    simp only [Nat.zero_add] at h1
    rw [List.getElem?_take_of_lt (by omega), h1, List.getElem?_take_of_lt hi]

/-- With a supported codec, `TestCodec` passes every trial and returns, for sizes
that are element counts the codec accepts. -/
theorem Supported_TestCodec (env : Env) (c : Integer) (ok : Nat → Prop) (hc : Supported c ok)
    (data : List Int) (sizes : List Int) (hsizes : ∀ s ∈ sizes, 0 ≤ s ∧ ok s.toNat)
    (hfit : (data.length : Int) * 2 < 2 ^ (env.intBits - 1))
    (hmake : data.length * 2 ≤ env.maxLen) :
    (TestCodec env c data sizes).outcome = .returned () := by
  induction sizes with
  | nil => rfl
  | cons s sizes ih =>
    have ih := ih fun j hj => hsizes j (List.mem_cons_of_mem _ hj)
    obtain ⟨hs0, hsok⟩ := hsizes s (List.mem_cons_self _ _)
    by_cases hs : s ≤ (data.length : Int)
    · obtain ⟨k, rfl⟩ := Int.eq_ofNat_of_zero_le hs0
      have hk : k ≤ data.length := by omega
      obtain ⟨words, recovered, h1, h2, -, h4⟩ :=
        Supported_roundtrip env c ok hc data k (by simpa using hsok) hk hfit hmake
      rw [TestCodec_trial env c data k sizes hk _ _ words recovered h1 h2]
      have hloop : recoverLoop data recovered k k 0 = .returned () := by
        rw [recoverLoop_returned]
        intro j _ hj
        exact ⟨data[j], List.getElem?_eq_getElem (by omega),
          by rw [h4 j (by omega)]; exact List.getElem?_eq_getElem (by omega)⟩
      rw [hloop]
      exact ih
    · rw [TestCodec_skip env c data s sizes (by omega)]
      exact ih

/-- What composite compress leaves behind, in terms of what is there after the
bulk step. -/
theorem Composition_compress_result (bulk : Bulk) (remainder : Integer) (inp : List Int)
    (inpos k : Nat) (out : List Int) (outpos : Nat) (afterBulk : CallResult)
    (hafter : afterBulk = if 0 < k - k % bulk.blockSize then
      bulk.Compress inp inpos (k - k % bulk.blockSize) out outpos
      else ⟨out, inpos, outpos, none⟩) :
    (Composition.New bulk remainder).Compress inp inpos k out outpos =
      if afterBulk.err = none ∧ 0 < k % bulk.blockSize then
        remainder.Compress inp afterBulk.inpos (k % bulk.blockSize) afterBulk.out afterBulk.outpos
      else afterBulk := by
  subst hafter
  have hmod : k % bulk.blockSize ≤ k := Nat.mod_le _ _
  have hsub : k - (k - k % bulk.blockSize) = k % bulk.blockSize := by omega
  show (Composition.compress bulk remainder inp inpos k out outpos).2 = _
  unfold Composition.compress
  simp only [hsub, gt_iff_lt]
  by_cases ha : 0 < k - k % bulk.blockSize
  · simp only [ha, if_true]
    rcases he : (bulk.Compress inp inpos (k - k % bulk.blockSize) out outpos).err with _ | e
    · by_cases hr : 0 < k % bulk.blockSize
      · simp [hr]
      · simp [hr]
    · simp
  · simp only [ha, if_false]
    by_cases hr : 0 < k % bulk.blockSize
    · simp [hr]
    · simp [hr]

/-- What composite uncompress leaves behind, in terms of what is there after
the bulk step. -/
theorem Composition_uncompress_result (bulk : Bulk) (remainder : Integer) (inp : List Int)
    (inpos inlength : Nat) (out : List Int) (outpos k : Nat) (afterBulk : CallResult)
    (hk : k = out.length - outpos)
    (hafter : afterBulk = if 0 < k - k % bulk.blockSize then
      ⟨(bulk.Uncompress inp inpos inlength
            (out.take (outpos + (k - k % bulk.blockSize))) outpos).out
          ++ out.drop (outpos + (k - k % bulk.blockSize)),
        (bulk.Uncompress inp inpos inlength
            (out.take (outpos + (k - k % bulk.blockSize))) outpos).inpos,
        (bulk.Uncompress inp inpos inlength
            (out.take (outpos + (k - k % bulk.blockSize))) outpos).outpos,
        (bulk.Uncompress inp inpos inlength
            (out.take (outpos + (k - k % bulk.blockSize))) outpos).err⟩
      else ⟨out, inpos, outpos, none⟩) :
    (Composition.New bulk remainder).Uncompress inp inpos inlength out outpos =
      if afterBulk.err = none ∧ 0 < k % bulk.blockSize then
        remainder.Uncompress inp afterBulk.inpos (inlength - (afterBulk.inpos - inpos))
          afterBulk.out afterBulk.outpos
      else afterBulk := by
  subst hafter
  subst hk
  have hmod : (out.length - outpos) % bulk.blockSize ≤ out.length - outpos := Nat.mod_le _ _
  have hsub : (out.length - outpos) - ((out.length - outpos)
      - (out.length - outpos) % bulk.blockSize) = (out.length - outpos) % bulk.blockSize := by
    omega
  show (Composition.uncompress bulk remainder inp inpos inlength out outpos).2 = _
  unfold Composition.uncompress
  simp only [hsub, gt_iff_lt]
  by_cases ha : 0 < (out.length - outpos) - (out.length - outpos) % bulk.blockSize
  · simp only [ha, if_true]
    rcases he : (bulk.Uncompress inp inpos inlength (out.take (outpos + ((out.length - outpos)
        - (out.length - outpos) % bulk.blockSize))) outpos).err with _ | e
    · by_cases hr : 0 < (out.length - outpos) % bulk.blockSize
      · simp [hr]
      · simp [hr]
    · simp
  · simp only [ha, if_false]
    by_cases hr : 0 < (out.length - outpos) % bulk.blockSize
    · simp [hr]
    · simp [hr]

/-- The bulk step of the composite codec, called or skipped, with a supported
bulk codec: compression of the `aligned` first elements succeeds within the
bounds of the contract, and the bulk step of decompression gives them back. -/
theorem Composition_bulk_step (bulk : Bulk)
    (hbulk : Supported bulk.toInteger fun n => 0 < n ∧ bulk.blockSize ∣ n)
    (inp : List Int) (inpos n : Nat) (out : List Int) (outpos : Nat)
    (hin : inpos + n ≤ inp.length) (hout : outpos + 2 * n ≤ out.length) (ab : CallResult)
    (hab : ab = if 0 < n - n % bulk.blockSize then
      bulk.Compress inp inpos (n - n % bulk.blockSize) out outpos
      else ⟨out, inpos, outpos, none⟩) :
    ab.err = none ∧ ab.inpos = inpos + (n - n % bulk.blockSize) ∧ outpos ≤ ab.outpos ∧
    ab.outpos ≤ outpos + 2 * (n - n % bulk.blockSize) ∧ ab.out.length = out.length ∧
    (∀ i, i < outpos → ab.out[i]? = out[i]?) ∧
    ∀ (words : List Int) (avail : Nat) (dst : List Int) (dpos : Nat) (aub : CallResult),
      (∀ i, outpos ≤ i → i < ab.outpos → words[i]? = ab.out[i]?) →
      ab.outpos ≤ outpos + avail → dpos + n = dst.length →
      aub = (if 0 < n - n % bulk.blockSize then
        ⟨(bulk.Uncompress words outpos avail
              (dst.take (dpos + (n - n % bulk.blockSize))) dpos).out
            ++ dst.drop (dpos + (n - n % bulk.blockSize)),
          (bulk.Uncompress words outpos avail
              (dst.take (dpos + (n - n % bulk.blockSize))) dpos).inpos,
          (bulk.Uncompress words outpos avail
              (dst.take (dpos + (n - n % bulk.blockSize))) dpos).outpos,
          (bulk.Uncompress words outpos avail
              (dst.take (dpos + (n - n % bulk.blockSize))) dpos).err⟩
        else ⟨dst, outpos, dpos, none⟩) →
      aub.err = none ∧ aub.inpos = ab.outpos ∧ aub.outpos = dpos + (n - n % bulk.blockSize) ∧
      aub.out.length = dst.length ∧ (∀ i, i < dpos → aub.out[i]? = dst[i]?) ∧
      (∀ i, i < n - n % bulk.blockSize → aub.out[dpos + i]? = inp[inpos + i]?) := by
  have hmod : n % bulk.blockSize ≤ n := Nat.mod_le _ _
  by_cases ha : 0 < n - n % bulk.blockSize
  · rw [if_pos ha] at hab
    subst hab
    obtain ⟨e1, i1, lo1, hi1, fr1, d1⟩ := hbulk inp inpos (n - n % bulk.blockSize) out outpos
      ⟨ha, Nat.dvd_sub_mod n⟩ (by omega) (by omega)
    refine ⟨e1, i1, lo1, hi1, bulk.compress_len _ _ _ _ _, fr1, ?_⟩
    intro words avail dst dpos aub hag hav hd haub
    rw [if_pos ha] at haub
    subst haub
    have hwl : (dst.take (dpos + (n - n % bulk.blockSize))).length
        = dpos + (n - n % bulk.blockSize) := by
      rw [List.length_take]
      omega
    obtain ⟨ue, ui, uo, ufr, uel⟩ := d1 words avail
      (dst.take (dpos + (n - n % bulk.blockSize))) dpos hag hav (by rw [hwl])
    have hul : (bulk.Uncompress words outpos avail
        (dst.take (dpos + (n - n % bulk.blockSize))) dpos).out.length
        = dpos + (n - n % bulk.blockSize) := by
      rw [bulk.uncompress_len, hwl]
    refine ⟨ue, ui, uo, ?_, ?_, ?_⟩
    · simp only [List.length_append, hul, List.length_drop]
      omega
    · intro i hi
      simp only
      rw [List.getElem?_append_left (by omega), ufr i hi, List.getElem?_take_of_lt (by omega)]
    · intro i hi
      simp only
      rw [List.getElem?_append_left (by omega), uel i hi]
  · rw [if_neg ha] at hab
    subst hab
    have hz : n - n % bulk.blockSize = 0 := by omega
    refine ⟨rfl, by simp [hz], le_rfl, by simp, rfl, fun _ _ => rfl, ?_⟩
    intro words avail dst dpos aub hag hav hd haub
    rw [if_neg ha] at haub
    subst haub
    refine ⟨rfl, rfl, by simp [hz], rfl, fun _ _ => rfl, ?_⟩
    intro i hi
    omega

/-- The composite of a supported bulk codec (for the positive multiples of its
block size) and a supported remainder codec (for every positive count) is a
supported codec for every element count. -/
theorem Composition_supported (bulk : Bulk) (remainder : Integer)
    (hbulk : Supported bulk.toInteger fun n => 0 < n ∧ bulk.blockSize ∣ n)
    (hrem : Supported remainder fun n => 0 < n) :
    Supported (Composition.New bulk remainder) fun _ => True := by
  intro inp inpos n out outpos _ hin hout
  have hmod : n % bulk.blockSize ≤ n := Nat.mod_le _ _
  obtain ⟨ab, hab⟩ : ∃ ab : CallResult, ab = if 0 < n - n % bulk.blockSize then
      bulk.Compress inp inpos (n - n % bulk.blockSize) out outpos
      else ⟨out, inpos, outpos, none⟩ := ⟨_, rfl⟩
  obtain ⟨e1, i1, lo1, hi1, l1, fr1, d1⟩ :=
    Composition_bulk_step bulk hbulk inp inpos n out outpos hin hout ab hab
  rw [Composition_compress_result bulk remainder inp inpos n out outpos ab hab]
  by_cases hm : 0 < n % bulk.blockSize
  · rw [if_pos ⟨e1, hm⟩]
    obtain ⟨e2, i2, lo2, hi2, fr2, d2⟩ := hrem inp ab.inpos (n % bulk.blockSize) ab.out ab.outpos
      hm (by omega) (by omega)
    refine ⟨e2, by omega, by omega, by omega, fun i hi => by rw [fr2 i (by omega), fr1 i hi], ?_⟩
    intro words avail dst dpos hag hav hd
    obtain ⟨aub, haub⟩ : ∃ aub : CallResult, aub = (if 0 < n - n % bulk.blockSize then
        ⟨(bulk.Uncompress words outpos avail
              (dst.take (dpos + (n - n % bulk.blockSize))) dpos).out
            ++ dst.drop (dpos + (n - n % bulk.blockSize)),
          (bulk.Uncompress words outpos avail
              (dst.take (dpos + (n - n % bulk.blockSize))) dpos).inpos,
          (bulk.Uncompress words outpos avail
              (dst.take (dpos + (n - n % bulk.blockSize))) dpos).outpos,
          (bulk.Uncompress words outpos avail
              (dst.take (dpos + (n - n % bulk.blockSize))) dpos).err⟩
        else ⟨dst, outpos, dpos, none⟩) := ⟨_, rfl⟩
    obtain ⟨ue, ui, uo, ul, ufr, uel⟩ := d1 words avail dst dpos aub
      (fun i h1 h2 => by rw [hag i h1 (by omega), fr2 i h2]) (by omega) hd haub
    rw [Composition_uncompress_result bulk remainder words outpos avail dst dpos n aub
      (by omega) haub, if_pos ⟨ue, hm⟩, ui]
    obtain ⟨ve, vi, vo, vfr, vel⟩ := d2 words (avail - (ab.outpos - outpos)) aub.out aub.outpos
      (fun i h1 h2 => hag i (by omega) h2) (by omega) (by omega)
    refine ⟨ve, vi, by omega, fun i hi => by rw [vfr i (by omega), ufr i hi], ?_⟩
    intro i hi
    by_cases hia : i < n - n % bulk.blockSize
    · rw [vfr (dpos + i) (by omega), uel i hia]
    · have h := vel (i - (n - n % bulk.blockSize)) (by omega)
      have h1 : aub.outpos + (i - (n - n % bulk.blockSize)) = dpos + i := by omega
      have h2 : ab.inpos + (i - (n - n % bulk.blockSize)) = inpos + i := by omega
      rw [h1, h2] at h
      exact h
  · have hcond : ¬ (ab.err = none ∧ 0 < n % bulk.blockSize) := fun h => hm h.2
    rw [if_neg hcond]
    have hn : n - n % bulk.blockSize = n := by omega
    rw [hn] at i1 hi1 d1
    refine ⟨e1, i1, lo1, hi1, fr1, ?_⟩
    intro words avail dst dpos hag hav hd
    obtain ⟨aub, haub⟩ : ∃ aub : CallResult, aub = (if 0 < n then
        ⟨(bulk.Uncompress words outpos avail (dst.take (dpos + n)) dpos).out
            ++ dst.drop (dpos + n),
          (bulk.Uncompress words outpos avail (dst.take (dpos + n)) dpos).inpos,
          (bulk.Uncompress words outpos avail (dst.take (dpos + n)) dpos).outpos,
          (bulk.Uncompress words outpos avail (dst.take (dpos + n)) dpos).err⟩
        else ⟨dst, outpos, dpos, none⟩) := ⟨_, rfl⟩
    obtain ⟨ue, ui, uo, ul, ufr, uel⟩ := d1 words avail dst dpos aub hag hav hd haub
    have hcond2 : ¬ (aub.err = none ∧ 0 < n % bulk.blockSize) := fun h => hm h.2
    rw [Composition_uncompress_result bulk remainder words outpos avail dst dpos n aub
      (by omega) (by rw [hn]; exact haub), if_neg hcond2]
    exact ⟨ue, ui, uo, ufr, uel⟩

/-- The plain codec is a supported codec for the positive element counts it
accepts. -/
theorem plainCodec_supported (ok : Nat → Bool) (P : Nat → Prop)
    (hP : ∀ n, P n → ok n = true ∧ 0 < n) : Supported (plainCodec ok) P := by
  intro inp inpos n out outpos hPn hin hout
  obtain ⟨hok, hn⟩ := hP n hPn
  have hC : (plainCodec ok).Compress inp inpos n out outpos =
      ⟨out.take outpos ++ ((inp.drop inpos).take n ++ out.drop (outpos + n)),
        inpos + n, outpos + n, none⟩ := by
    show (if _ then _ else _) = _
    rw [if_pos ⟨hok, hin, by omega⟩]
  rw [hC]
  simp only
  have hto : (out.take outpos).length = outpos := by
    rw [List.length_take]
    omega
  have htn : ((inp.drop inpos).take n).length = n := by
    rw [List.length_take, List.length_drop]
    omega
  refine ⟨trivial, trivial, by omega, by omega, ?_, ?_⟩
  · intro i hi
    rw [List.getElem?_append_left (by omega), List.getElem?_take_of_lt hi]
  · intro words avail dst dpos hag hav hd
    have key : ∀ j, j < n → words[outpos + j]? = inp[inpos + j]? := by
      intro j hj
      rw [hag (outpos + j) (by omega) (by omega), List.getElem?_append_right (by omega), hto,
        Nat.add_sub_cancel_left, List.getElem?_append_left (by omega),
        List.getElem?_take_of_lt hj, List.getElem?_drop]
    have hwlen : outpos + n ≤ words.length := by
      have h1 := key (n - 1) (by omega)
      have hlt : inpos + (n - 1) < inp.length := by omega
      rw [List.getElem?_eq_getElem hlt] at h1
      by_contra hcon
      rw [List.getElem?_eq_none (by omega)] at h1
      exact Option.noConfusion h1
    have hroom : dst.length - dpos = n := by omega
    have hU : (plainCodec ok).Uncompress words outpos avail dst dpos =
        ⟨dst.take dpos ++ (words.drop outpos).take n, outpos + n, dpos + n, none⟩ := by
      show (if _ then _ else _) = _
      rw [hroom, if_pos ⟨hok, by omega, hwlen, by omega⟩]
    rw [hU]
    simp only
    have htd : (dst.take dpos).length = dpos := by
      rw [List.length_take]
      omega
    refine ⟨trivial, trivial, trivial, ?_, ?_⟩
    · intro i hi
      rw [List.getElem?_append_left (by omega), List.getElem?_take_of_lt hi]
    · intro i hi
      rw [List.getElem?_append_right (by omega), htd, Nat.add_sub_cancel_left,
        List.getElem?_take_of_lt hi, List.getElem?_drop, key i hi]

/-- The plain bulk codec of block size `b` is supported for the positive
multiples of `b`. -/
theorem plainBulk_supported (b : Nat) :
    Supported (plainBulk b).toInteger fun n => 0 < n ∧ (plainBulk b).blockSize ∣ n :=
  plainCodec_supported _ _ fun n h =>
    ⟨by
      have h2 : n % b = 0 := Nat.mod_eq_zero_of_dvd h.2
      simp [h.1, h2], h.1⟩

/-- The plain remainder codec is supported for every positive count. -/
theorem plainRemainder_supported : Supported plainRemainder fun n => 0 < n :=
  plainCodec_supported _ _ fun n h => ⟨by simp [h], h⟩

/-- C1. Round trip. For the composite codec `New(bulk, remainder)` of two
supported codecs (the bulk codec for the positive multiples of its block size,
the remainder codec for every positive count), every input `data` (whose
doubled length is representable in `int` and within what `make` allocates) and
every `k ≤ len(data)`: `Compress(codec, data[:k], k)` returns a compressed sequence
without error, `Uncompress(codec, compressed, k)` returns without error a
sequence of length `k` whose element `i` equals `data[i]` for every `i < k`,
and `TestCodec` on any list of sizes that are not negative passes every trial
and returns, so it never reaches its abort. -/
theorem Composition_roundtrip (env : Env) (bulk : Bulk) (remainder : Integer)
    (hbulk : Supported bulk.toInteger fun n => 0 < n ∧ bulk.blockSize ∣ n)
    (hrem : Supported remainder fun n => 0 < n)
    (data : List Int) (k : Nat) (hk : k ≤ data.length)
    (hfit : (data.length : Int) * 2 < 2 ^ (env.intBits - 1))
    (hmake : data.length * 2 ≤ env.maxLen) :
    (∃ words recovered,
      (Compress env (Composition.New bulk remainder) (data.take k) k).outcome
        = .returned ⟨env.since, some words, none⟩ ∧
      (Uncompress env (Composition.New bulk remainder) words k).outcome
        = .returned ⟨env.since, some recovered, none⟩ ∧
      recovered.length = k ∧ ∀ i, i < k → recovered[i]? = data[i]?) ∧
    ∀ sizes : List Int, (∀ s ∈ sizes, 0 ≤ s) →
      (TestCodec env (Composition.New bulk remainder) data sizes).outcome = .returned () :=
  ⟨Supported_roundtrip env _ _ (Composition_supported bulk remainder hbulk hrem) data k
      trivial hk hfit hmake,
    fun sizes hs => Supported_TestCodec env _ _ (Composition_supported bulk remainder hbulk hrem)
      data sizes (fun s h => ⟨hs s h, trivial⟩) hfit hmake⟩

/-- C1, at a concrete input: the composite of the plain codecs with block size 4
on eleven elements; the trials of sizes 10, 4 and 3 pass (size 20 is skipped). -/
theorem Composition_roundtrip_witness :
    (TestCodec quietEnv (Composition.New (plainBulk 4) plainRemainder)
      [1, 2, 3, 4, 5, 6, 7, 8, 9, 10, 11] [10, 20, 4, 3]).outcome = .returned () :=
  (Composition_roundtrip quietEnv (plainBulk 4) plainRemainder (plainBulk_supported 4)
    plainRemainder_supported [1, 2, 3, 4, 5, 6, 7, 8, 9, 10, 11] 10 (by decide) (by decide)
    (by decide)).2 [10, 20, 4, 3] (by decide)

end Encoding
